import Mathlib

/-!
# Verification of the jsCSP constraint-satisfaction engine

A shallow embedding of `src/csp.js` (the constraint-satisfaction solving
engine): problem normalization/validation, binary AC-3 propagation, n-ary
GAC propagation with its support oracle, the MRV / least-constraining-value
heuristics, and the backtracking search driver.

Modelling conventions:
* JavaScript objects used as string-keyed maps become association lists
  `List (String × α)` with first-occurrence lookup, in-place update of the
  first matching binding (`vSet`), and deletion of the first matching
  binding (`vErase`).  JS objects preserve insertion order for string
  keys, which the list order models.  The source's identifier `variables`
  is a reserved word in Lean 4 and is rendered as `vars` (field) / `vm`
  (parameters).
* A variable's domain is a `List V` of candidate values.  A raw domain
  that is not an array (`Array.isArray` false) is modelled as `none`.
* An n-ary predicate receives the assembled tuple as a function
  `String → Option V` (the JS object `assign`); a predicate that throws
  is modelled as returning `none`.  `!!p(t)` wrapped in `try/catch`
  becomes `(p t).getD false` (`evalPred`).
* Binary predicates are called without a `try/catch` in the source, so
  they are modelled as total `V → V → Bool`.
* The `while` loops of AC-3 and GAC become fuel-indexed recursions
  returning `none` when the fuel runs out; explicit fuel bounds are
  proved sufficient, and the production wrappers `runAC3` / `runGAC`
  instantiate them.
* `backtrack`'s recursion is indexed by a fuel bounded by the number of
  variables (its recursion depth in the source).
* The progress callback (`csp.cb` / `setTimeout`) and `stepCounter` are
  purely observational (never influence control flow or the result) and
  are omitted.
-/

/-- Values of a variable's domain.  The engine is generic in the value type. -/
abbrev Dom (V : Type) := List V

/-- A JS object mapping variable names to values of type `α`
(insertion-ordered association list). -/
abbrev VMap (α : Type) := List (String × α)

/-- A variable-to-domain mapping (the `variables` objects in the source). -/
abbrev VarMap (V : Type) := VMap (Dom V)

/-- `vars[k]`: first-occurrence lookup in a JS object modelled as a list. -/
def vLookup {α : Type} : VMap α → String → Option α
  | [], _ => none
  | (k', v) :: rest, k => if k' = k then some v else vLookup rest k

/-- `vars[k] = v`: overwrite the first binding of `k`, or append a new one. -/
def vSet {α : Type} : VMap α → String → α → VMap α
  | [], k, v => [(k, v)]
  | (k', v') :: rest, k, v =>
    if k' = k then (k, v) :: rest else (k', v') :: vSet rest k v

/-- `delete vars[k]`: remove the first binding of `k`. -/
def vErase {α : Type} : VMap α → String → VMap α
  | [], _ => []
  | (k', v') :: rest, k => if k' = k then rest else (k', v') :: vErase rest k

/-- `Object.keys(vars)`. -/
def vKeys {α : Type} (m : VMap α) : List String := m.map Prod.fst

/-- Total number of candidate values over all domains (the termination
measure for the propagation loops). -/
def domSum {V : Type} : VarMap V → Nat
  | [] => 0
  | (_, d) :: rest => d.length + domSum rest

theorem vLookup_set_self {α : Type} (m : VMap α) (k : String) (v : α) :
    vLookup (vSet m k v) k = some v := by
  induction m with
  | nil => simp [vSet, vLookup]
  | cons kv rest ih =>
    obtain ⟨k', v'⟩ := kv
    by_cases h : k' = k <;> simp [vSet, vLookup, h, ih]

theorem vLookup_set_ne {α : Type} (m : VMap α) (k k' : String) (v : α)
    (h : k' ≠ k) : vLookup (vSet m k v) k' = vLookup m k' := by
  have hne : ¬ (k = k') := fun h' => h h'.symm
  induction m with
  | nil => simp [vSet, vLookup, hne]
  | cons kv rest ih =>
    obtain ⟨k0, v0⟩ := kv
    by_cases h0 : k0 = k
    · subst h0
      simp [vSet, vLookup, hne]
    · simp [vSet, vLookup, h0, ih]

theorem vSet_eq_self {α : Type} (m : VMap α) (k : String) (v : α)
    (h : vLookup m k = some v) : vSet m k v = m := by
  induction m with
  | nil => simp [vLookup] at h
  | cons kv rest ih =>
    obtain ⟨k0, v0⟩ := kv
    by_cases h0 : k0 = k
    · subst h0
      simp [vLookup] at h
      simp [vSet, h]
    · simp [vLookup, h0] at h
      simp [vSet, h0, ih h]

theorem vKeys_set {α : Type} (m : VMap α) (k : String) (v : α)
    (h : (vLookup m k).isSome) : vKeys (vSet m k v) = vKeys m := by
  induction m with
  | nil => simp [vLookup] at h
  | cons kv rest ih =>
    obtain ⟨k0, v0⟩ := kv
    by_cases h0 : k0 = k
    · subst h0; simp [vSet, vKeys]
    · simp [vLookup, h0] at h
      simp [vSet, vKeys, h0] at ih ⊢
      exact ih h

theorem vLookup_isSome_iff_mem {α : Type} (m : VMap α) (k : String) :
    (vLookup m k).isSome ↔ k ∈ vKeys m := by
  induction m with
  | nil => simp [vLookup, vKeys]
  | cons kv rest ih =>
    obtain ⟨k0, v0⟩ := kv
    by_cases h0 : k0 = k <;> simp [vLookup, vKeys, h0, ih]
    · exact fun h => (h0 h.symm).elim

theorem domSum_set {V : Type} (m : VarMap V) (k : String) (d d' : Dom V)
    (h : vLookup m k = some d) :
    domSum (vSet m k d') + d.length = domSum m + d'.length := by
  induction m with
  | nil => simp [vLookup] at h
  | cons kv rest ih =>
    obtain ⟨k0, v0⟩ := kv
    by_cases h0 : k0 = k
    · subst h0
      simp [vLookup] at h
      subst h
      simp [vSet, domSum]
      omega
    · simp [vLookup, h0] at h
      simp [vSet, domSum, h0]
      have := ih h
      omega

/-! ## Data model (`src/csp.js` constraint and problem representations) -/

/-- A binary constraint `[head, tail, predicate]` (a directed arc). -/
structure BinC (V : Type) where
  head : String
  tail : String
  pred : V → V → Bool

/-- The assembled tuple handed to an n-ary predicate (the JS `assign`
object), as a finite partial valuation. -/
abbrev Assign (V : Type) := String → Option V

/-- An n-ary constraint `{ vars: [...], predicate: fn }`.  A predicate
result of `none` models a thrown error. -/
structure NaryC (V : Type) where
  vars : List String
  predicate : Assign V → Option Bool

/-- The normalized Problem Model (`timeStep`/`cb` are observational and
omitted; `_naryIndex` is recomputed by `runGAC`, with the same value as
the precomputation in `solve`).  The source's `variables` field is
rendered `vars`. -/
structure Problem (V : Type) where
  vars : VarMap V
  constraints : List (BinC V)
  naryConstraints : List (NaryC V)

/-- A raw problem description as handed to `CSP.solve`.
`vars` (the source's `variables`) maps a name to `some dom` (an array) or
`none` (any non-array value).  The constraint lists are `none` when not
arrays; an entry is `none` when malformed (not an array of length ≥ 3
with a function third element, resp. not an object with a `vars` array
and a `predicate` function), which `normalizeProblem` filters out. -/
structure RawProblem (V : Type) where
  vars : List (String × Option (Dom V))
  constraints : Option (List (Option (BinC V)))
  naryConstraints : Option (List (Option (NaryC V)))

/-- The error classes thrown by `validateProblem`, one constructor per
`throw` site. -/
inductive VErr where
  /-- `'Variable "v" domain is not an array'` -/
  | invalidDomain (v : String)
  /-- `'Binary constraint references unknown variable "v"'` -/
  | unknownVarBinary (v : String)
  /-- `'N-ary constraint missing vars array'` -/
  | naryMissingVars
  /-- `'N-ary constraint references unknown variable "v"'` -/
  | unknownVarNary (v : String)
  deriving DecidableEq, Repr

/-! ## Support Oracle (`hasSupport`) -/

/-- `!!C.predicate(assign)` inside `try { ... } catch (e) { return false; }`:
a thrown error (`none`) is a false verdict. -/
def evalPred {V : Type} (p : Assign V → Option Bool) (a : Assign V) : Bool :=
  (p a).getD false

/-- `assign[vname] = val` on the tuple object. -/
def setA {V : Type} (a : Assign V) (k : String) (v : V) : Assign V :=
  fun w => if w = k then some v else a w

/-- The tuple object after the DFS has bound every pair of `l` in order
(later bindings overwrite earlier ones). -/
def setAll {V : Type} (a : Assign V) : List (String × V) → Assign V
  | [] => a
  | (k, v) :: rest => setAll (setA a k v) rest

/-- The collection loop of `hasSupport`: gather the participants other
than the focus variable; a missing (`!Array.isArray`) or empty domain
returns `false` early (modelled as `none`). -/
def collectOthers {V : Type} (focusVar : String) (vm : VarMap V) :
    List String → Option (List String)
  | [] => some []
  | v :: rest =>
    if v = focusVar then collectOthers focusVar vm rest
    else
      match vLookup vm v with
      | none => none
      | some dom =>
        if dom.length = 0 then none
        else (collectOthers focusVar vm rest).map (fun os => v :: os)

/-- A domain size where `none` models `Infinity` (the guard in the sort
comparator for an undefined domain). -/
def lenInf {V : Type} (vm : VarMap V) (v : String) : Option Nat :=
  (vLookup vm v).map List.length

/-- `da - db <= 0` for the comparator `(a, b) => da - db`, with `none`
as `Infinity`. -/
def leInf : Option Nat → Option Nat → Bool
  | some a, some b => a ≤ b
  | some _, none => true
  | none, some _ => false
  | none, none => true

/-- Insert into a list sorted by `le` (a model of the engine's stable
comparison sort; only the fact that the output is a permutation of the
input matters to the properties proved here). -/
def insertLe {α : Type} (le : α → α → Bool) (x : α) : List α → List α
  | [] => [x]
  | y :: ys => if le y x then y :: insertLe le x ys else x :: y :: ys

/-- Comparison sort used for `others.sort(...)` and `baseValues.sort(...)`. -/
def sortLe {α : Type} (le : α → α → Bool) : List α → List α
  | [] => []
  | x :: xs => insertLe le x (sortLe le xs)

/-- The DFS over the cartesian product of the listed domains: bind each
variable of the list to each of its values in turn, and evaluate the
predicate (fail-closed) once the list is exhausted. -/
def dfsSupport {V : Type} (p : Assign V → Option Bool) :
    List (String × Dom V) → Assign V → Bool
  | [], assign => evalPred p assign
  | (vname, dom) :: rest, assign =>
    dom.any (fun val => dfsSupport p rest (setA assign vname val))

/-- `hasSupport(focusVar, focusVal, C, variables)` from `src/csp.js`:
decides whether `focusVar = focusVal` extends to a full tuple over
`C.vars` drawn from the current domains that satisfies `C.predicate`. -/
def hasSupport {V : Type} (focusVar : String) (focusVal : V) (C : NaryC V)
    (vm : VarMap V) : Bool :=
  match collectOthers focusVar vm C.vars with
  | none => false
  | some others =>
    let sorted := sortLe (fun a b => leInf (lenInf vm a) (lenInf vm b)) others
    dfsSupport C.predicate
      ((focusVar, [focusVal]) ::
        sorted.map (fun v => (v, (vLookup vm v).getD [])))
      (fun _ => none)

/-! ## Binary arc consistency (AC-3) -/

/-- `constraints.filter(c => c[0] === node)`: the arcs whose head is `node`. -/
def incomingConstraints {V : Type} (cs : List (BinC V)) (node : String) :
    List (BinC V) :=
  cs.filter (fun c => c.head = node)

/-- The AC-3 work-queue loop of `runAC3`, fuel-indexed (`none` = fuel ran
out, `some none` = inconsistency detected / `return false`).  The body
inlines `removeInconsistentValues`, which always stores the filtered
tail domain and reports whether anything was removed. -/
def runAC3Loop {V : Type} (cs : List (BinC V)) :
    Nat → List (BinC V) → VarMap V → Option (Option (VarMap V))
  | 0, _, _ => none
  | _ + 1, [], vm => some (some vm)
  | fuel + 1, c :: queue, vm =>
    match vLookup vm c.head, vLookup vm c.tail with
    | some hv, some tv =>
      let validTailValues := tv.filter (fun t => hv.any (fun h => c.pred h t))
      if validTailValues.length = tv.length then
        runAC3Loop cs fuel queue (vSet vm c.tail validTailValues)
      else if validTailValues.length = 0 then some none
      else
        runAC3Loop cs fuel (queue ++ incomingConstraints cs c.tail)
          (vSet vm c.tail validTailValues)
    | _, _ => runAC3Loop cs fuel queue vm

/-- Fuel provably sufficient for the AC-3 loop (each removal shrinks
`domSum` and enqueues at most `cs.length` arcs). -/
def ac3Fuel {V : Type} (cs : List (BinC V)) (vm : VarMap V) : Nat :=
  domSum vm * (cs.length + 1) + cs.length + 1

/-- `runAC3(variables, constraints)` (result `none` = `false`, i.e. some
domain was wiped out; `some vm` = `true` with the pruned domains). -/
def runAC3 {V : Type} (cs : List (BinC V)) (vm : VarMap V) :
    Option (VarMap V) :=
  (runAC3Loop cs (ac3Fuel cs vm) cs vm).getD none

/-! ## Generalized arc consistency (GAC) -/

/-- `(index[v] = index[v] || []).push(C)`, with constraints identified by
their position in `csp.naryConstraints` (JS reference identity on the
constraint objects of that array is modelled as index identity). -/
def pushIdx (idx : VMap (List Nat)) (v : String) (i : Nat) : VMap (List Nat) :=
  vSet idx v ((vLookup idx v).getD [] ++ [i])

/-- The indexed iteration of `buildNaryIndex`, starting at position `i`.
The `!C || !Array.isArray(C.vars)` guard cannot fire after
normalization and is omitted. -/
def buildIdxFrom {V : Type} (i : Nat) :
    List (NaryC V) → VMap (List Nat) → VMap (List Nat)
  | [], idx => idx
  | C :: rest, idx =>
    buildIdxFrom (i + 1) rest (C.vars.foldl (fun idx2 v => pushIdx idx2 v i) idx)

/-- `buildNaryIndex(naryConstraints)`: variable name → positions of the
n-ary constraints mentioning it. -/
def buildNaryIndex {V : Type} (ncs : List (NaryC V)) : VMap (List Nat) :=
  buildIdxFrom 0 ncs []

/-- `if (queue.indexOf(Rc) === -1) queue.push(Rc)`. -/
def pushUnique (queue : List Nat) (r : Nat) : List Nat :=
  if r ∈ queue then queue else queue ++ [r]

/-- The re-enqueue step of `runGAC`: for every variable of `C` (in order),
push every related constraint not already queued. -/
def enqueueRelated (index : VMap (List Nat)) (vs : List String)
    (queue : List Nat) : List Nat :=
  vs.foldl (fun q v => ((vLookup index v).getD []).foldl pushUnique q) queue

/-- The inner revision loop of `runGAC` over `C.vars`: recompute each
present domain as its supported subset; `none` models the immediate
`return false` on a wiped-out domain; the `Bool` is `changedAny`. -/
def reviseVars {V : Type} (C : NaryC V) :
    List String → VarMap V → Bool → Option (Bool × VarMap V)
  | [], vm, changed => some (changed, vm)
  | v :: rest, vm, changed =>
    match vLookup vm v with
    | none => reviseVars C rest vm changed
    | some dom =>
      let newDom := dom.filter (fun val => hasSupport v val C vm)
      if newDom.length = dom.length then reviseVars C rest vm changed
      else if newDom.length = 0 then none
      else reviseVars C rest (vSet vm v newDom) true

/-- The GAC work queue loop, fuel-indexed, over constraint positions.
The `!C || !Array.isArray(C.vars) || typeof C.predicate !== 'function'`
guard cannot fire after normalization and is omitted. -/
def runGACLoop {V : Type} (csp : Problem V) (index : VMap (List Nat)) :
    Nat → List Nat → VarMap V → Option (Option (VarMap V))
  | 0, _, _ => none
  | _ + 1, [], vm => some (some vm)
  | fuel + 1, i :: queue, vm =>
    match csp.naryConstraints[i]? with
    | none => runGACLoop csp index fuel queue vm
    | some C =>
      match reviseVars C C.vars vm false with
      | none => some none
      | some (changedAny, vm') =>
        if changedAny then
          runGACLoop csp index fuel (enqueueRelated index C.vars queue) vm'
        else runGACLoop csp index fuel queue vm'

/-- Fuel provably sufficient for the GAC loop. -/
def gacFuel {V : Type} (csp : Problem V) (vm : VarMap V) : Nat :=
  domSum vm * (csp.naryConstraints.length + 1) + csp.naryConstraints.length + 1

/-- `runGAC(variables, csp)` (queue initialized with every n-ary
constraint; `none` = `false`). -/
def runGAC {V : Type} (csp : Problem V) (vm : VarMap V) : Option (VarMap V) :=
  (runGACLoop csp (buildNaryIndex csp.naryConstraints) (gacFuel csp vm)
    (List.range csp.naryConstraints.length) vm).getD none

/-! ## Consistency engine and search driver -/

/-- `.slice()` copies are identities in a pure model. -/
def cloneVars {V : Type} (vm : VarMap V) : VarMap V := vm

/-- Shallow copy of an assignment (`cloneAssignment`). -/
def cloneAssignment {V : Type} (a : VarMap V) : VarMap V := a

/-- `partialAssignment(assigned, unassigned)`: unassigned entries first,
then assigned entries overwrite. -/
def mergeAssignment {V : Type} (assigned unassigned : VarMap V) : VarMap V :=
  assigned.foldl (fun acc kv => vSet acc kv.1 kv.2)
    (unassigned.foldl (fun acc kv => vSet acc kv.1 kv.2) [])

/-- `Object.keys(unassigned).length === 0`. -/
def finished {V : Type} (unassigned : VarMap V) : Bool :=
  (vKeys unassigned).length = 0

/-- `anyEmpty(vars)` (`!vars[k]` cannot fire when iterating own keys of
arrays, so only the length test remains). -/
def anyEmpty {V : Type} (vm : VarMap V) : Bool :=
  vm.any (fun kv => kv.2.length = 0)

/-- `enforceConsistency(assigned, unassigned, csp)`: merge, run AC-3 to a
fixpoint if there are binary constraints, then GAC if there are n-ary
constraints; `none` = `FAILURE`. -/
def enforceConsistency {V : Type} (assigned unassigned : VarMap V)
    (csp : Problem V) : Option (VarMap V) :=
  let vm := mergeAssignment assigned unassigned
  match (if csp.constraints.length = 0 then some vm
         else runAC3 csp.constraints vm) with
  | none => none
  | some vm1 =>
    if csp.naryConstraints.length = 0 then some vm1 else runGAC csp vm1

/-- `len < minLen` with `minLen` starting at `Infinity` (`none`). -/
def ltInf (len : Nat) : Option Nat → Bool
  | none => true
  | some m => len < m

/-- The scan of `selectUnassignedVariable`, with the `len === 1` early
`break` (a domain is always an array in the model, so the `Infinity`
branch of `Array.isArray(dom) ? dom.length : Infinity` is dead). -/
def selectGo {V : Type} :
    List (String × Dom V) → Option String → Option Nat → Option String
  | [], minKey, _ => minKey
  | (k, dom) :: rest, minKey, minLen =>
    if ltInf dom.length minLen then
      if dom.length = 1 then some k
      else selectGo rest (some k) (some dom.length)
    else selectGo rest minKey minLen

/-- `selectUnassignedVariable(unassigned)`: minimum-remaining-values. -/
def selectUnassignedVariable {V : Type} (unassigned : VarMap V) :
    Option String :=
  selectGo unassigned none none

/-- `countValues(vars)`: total remaining domain size. -/
def countValues {V : Type} (vm : VarMap V) : Nat :=
  vm.foldl (fun sum kv => sum + kv.2.length) 0

/-- The per-value lookahead score of `orderValues` (`none` models the
`-Infinity` score of an eliminated value). -/
def valueScore {V : Type} (nextKey : String) (assigned unassigned : VarMap V)
    (csp : Problem V) (val : V) : Option Nat :=
  let A := vSet (cloneAssignment assigned) nextKey [val]
  let U := vErase (cloneVars unassigned) nextKey
  match enforceConsistency A U csp with
  | none => none
  | some res => if anyEmpty res then none else some (countValues res)

/-- `score[b] - score[a] <= 0` for the descending sort comparator, with
`-Infinity` as `none`. -/
def scoreGe : Option Nat → Option Nat → Bool
  | some a, some b => b ≤ a
  | some _, none => true
  | none, some _ => false
  | none, none => true

/-- `orderValues(nextKey, assigned, unassigned, csp)`: score each value by
lookahead and sort descending (least-constraining first). -/
def orderValues {V : Type} (nextKey : String) (assigned unassigned : VarMap V)
    (csp : Problem V) : List V :=
  let baseValues := (vLookup unassigned nextKey).getD []
  if baseValues.length ≤ 1 then baseValues
  else
    sortLe (fun a b =>
        scoreGe (valueScore nextKey assigned unassigned csp a)
          (valueScore nextKey assigned unassigned csp b))
      baseValues

/-- The `for` loop over ordered candidate values inside `backtrack`,
parameterized by the recursive call `bt` at the next depth.  The
progress callback is observational and omitted. -/
def tryValues {V : Type}
    (bt : VarMap V → VarMap V → Option (Option (VarMap V)))
    (assigned unassigned : VarMap V) (csp : Problem V) (nextKey : String) :
    List V → Option (Option (VarMap V))
  | [] => some none
  | val :: values =>
    let assigned' := vSet assigned nextKey [val]
    match enforceConsistency assigned' unassigned csp with
    | none => tryValues bt assigned unassigned csp nextKey values
    | some consistent =>
      let newAssigned := consistent.filter
        (fun kv => (vLookup assigned' kv.1).isSome)
      let newUnassigned := consistent.filter
        (fun kv => (vLookup assigned' kv.1).isNone)
      if anyEmpty consistent then tryValues bt assigned unassigned csp nextKey values
      else
        match bt newAssigned newUnassigned with
        | none => none
        | some none => tryValues bt assigned unassigned csp nextKey values
        | some (some result) => some (some result)

/-- `backtrack(_assigned, unassigned, csp)`, fuel-indexed (`none` = fuel
ran out; `some none` = `FAILURE`).  The recursion depth of the source is
bounded by the number of unassigned variables, which the callers' fuel
covers. -/
def backtrack {V : Type} :
    Nat → VarMap V → VarMap V → Problem V → Option (Option (VarMap V))
  | 0, _, _, _ => none
  | fuel + 1, assignedIn, unassigned, csp =>
    let assigned := cloneAssignment assignedIn
    if finished unassigned then some (some assigned)
    else
      match selectUnassignedVariable unassigned with
      | none => some none
      | some nextKey =>
        let values := orderValues nextKey assigned unassigned csp
        tryValues (fun a u => backtrack fuel a u csp) assigned
          (vErase unassigned nextKey) csp nextKey values

/-! ## Validation, normalization and the public API -/

/-- `normalizeProblem(csp)`: clone domains (substituting `[]` for any
non-array domain) and keep only well-formed constraint entries. -/
def normalizeProblem {V : Type} (raw : RawProblem V) : Problem V :=
  { vars := raw.vars.map (fun kv => (kv.1, kv.2.getD [])),
    constraints := (raw.constraints.getD []).filterMap id,
    naryConstraints := (raw.naryConstraints.getD []).filterMap id }

/-- `new Set(Object.keys(csp.variables))` (used only for membership). -/
def varsSetOf {V : Type} (csp : Problem V) : List String := vKeys csp.vars

/-- `Array.isArray` applied to a normalized domain: `normalizeProblem`
has already replaced every non-array domain by `[]`, so on the values
`validateProblem` actually inspects this is constantly `true`. -/
def js_isArray {V : Type} (_d : Dom V) : Bool := true

/-- The domain check loop of `validateProblem`. -/
def validateVars {V : Type} : List (String × Dom V) → Except VErr Unit
  | [] => .ok ()
  | (k, d) :: rest =>
    if js_isArray d = false then .error (.invalidDomain k)
    else validateVars rest

/-- The binary-constraint check loop of `validateProblem` (the
`typeof pred !== 'function'` throw cannot fire after normalization's
filter and is omitted). -/
def validateBinary {V : Type} (varsSet : List String) :
    List (BinC V) → Except VErr Unit
  | [] => .ok ()
  | c :: rest =>
    if c.head ∉ varsSet then .error (.unknownVarBinary c.head)
    else if c.tail ∉ varsSet then .error (.unknownVarBinary c.tail)
    else validateBinary varsSet rest

/-- First participant of an n-ary constraint that is not a declared
variable (the inner `for` loop of the n-ary validation). -/
def firstUnknown (varsSet : List String) : List String → Option String
  | [] => none
  | v :: rest => if v ∉ varsSet then some v else firstUnknown varsSet rest

/-- The n-ary-constraint check loop of `validateProblem` (after
normalization `C.vars` is always an array and `C.predicate` a function,
so only the emptiness and membership checks remain live). -/
def validateNary {V : Type} (varsSet : List String) :
    List (NaryC V) → Except VErr Unit
  | [] => .ok ()
  | C :: rest =>
    if C.vars.length = 0 then .error .naryMissingVars
    else
      match firstUnknown varsSet C.vars with
      | some v => .error (.unknownVarNary v)
      | none => validateNary varsSet rest

/-- `validateProblem(csp)`. -/
def validateProblem {V : Type} (csp : Problem V) : Except VErr Unit :=
  match validateVars csp.vars with
  | .error e => .error e
  | .ok _ =>
    match validateBinary (varsSetOf csp) csp.constraints with
    | .error e => .error e
    | .ok _ => validateNary (varsSetOf csp) csp.naryConstraints

namespace CSP

/-- `CSP.solve(csp)`: normalize, validate, search, and unwrap singleton
domains (`Array.isArray(v) ? v[0] : v` becomes `head?`, every stored
domain being an array).  `none` in the success payload is the `FAILURE`
sentinel.  The backtracking fuel `|vars| + 1` covers the source's
recursion depth, which strictly decreases the unassigned set. -/
def solve {V : Type} (raw : RawProblem V) :
    Except VErr (Option (VMap (Option V))) :=
  let csp := normalizeProblem raw
  match validateProblem csp with
  | .error e => .error e
  | .ok _ =>
    .ok (match (backtrack (csp.vars.length + 1) [] (cloneVars csp.vars)
          csp).getD none with
      | none => none
      | some result => some (result.map (fun kv => (kv.1, kv.2.head?))))

end CSP

/-! ## Lemmas: sorting is a permutation -/

theorem insertLe_perm {α : Type} (le : α → α → Bool) (x : α) (l : List α) :
    (insertLe le x l).Perm (x :: l) := by
  induction l with
  | nil => simp [insertLe]
  | cons y ys ih =>
    by_cases h : le y x = true
    · simp only [insertLe, h, if_true]
      exact ((ih.cons y).trans (List.Perm.swap x y ys)).symm.symm
    · simp [insertLe, h]

theorem sortLe_perm {α : Type} (le : α → α → Bool) (l : List α) :
    (sortLe le l).Perm l := by
  induction l with
  | nil => simp [sortLe]
  | cons x xs ih => exact (insertLe_perm le x (sortLe le xs)).trans (ih.cons x)

theorem mem_sortLe {α : Type} (le : α → α → Bool) (l : List α) (x : α) :
    x ∈ sortLe le l ↔ x ∈ l :=
  (sortLe_perm le l).mem_iff

/-! ## Lemmas: the tuple object is a last-write-wins lookup -/

theorem vLookup_append {α : Type} (l1 l2 : VMap α) (k : String) :
    vLookup (l1 ++ l2) k =
      match vLookup l1 k with
      | some v => some v
      | none => vLookup l2 k := by
  induction l1 with
  | nil => simp [vLookup]
  | cons kv rest ih =>
    obtain ⟨k0, v0⟩ := kv
    by_cases h0 : k0 = k <;> simp [vLookup, h0, ih]

theorem vLookup_eq_none_of_not_mem {α : Type} (m : VMap α) (k : String)
    (h : k ∉ vKeys m) : vLookup m k = none := by
  have h2 := (vLookup_isSome_iff_mem m k).not.mpr h
  exact Option.not_isSome_iff_eq_none.mp h2

theorem mem_of_vLookup_isSome {α : Type} (m : VMap α) (k : String)
    (h : (vLookup m k).isSome) : k ∈ vKeys m :=
  (vLookup_isSome_iff_mem m k).mp h

theorem setAll_apply {V : Type} (l : List (String × V)) (a : Assign V)
    (w : String) :
    setAll a l w =
      match vLookup l.reverse w with
      | some x => some x
      | none => a w := by
  induction l generalizing a with
  | nil => simp [setAll, vLookup]
  | cons kv rest ih =>
    obtain ⟨k, v⟩ := kv
    have hrec := ih (setA a k v)
    simp only [setAll, List.reverse_cons]
    rw [hrec, vLookup_append]
    cases hl : vLookup rest.reverse w
    · simp only [vLookup, setA]
      by_cases hkw : k = w
      · subst hkw; simp
      · have : ¬ (w = k) := fun h' => hkw h'.symm
        simp [hkw, this]
    · rfl

theorem evalPred_eq_true_iff {V : Type} (p : Assign V → Option Bool)
    (a : Assign V) : evalPred p a = true ↔ p a = some true := by
  cases h : p a <;> simp [evalPred, h]

/-- The DFS of the Support Oracle finds a satisfying tuple iff one exists
in the cartesian product of the listed domains (tuples assembled by
last-write-wins binding). -/
theorem dfsSupport_iff {V : Type} (p : Assign V → Option Bool) :
    ∀ (pairs : List (String × Dom V)) (a : Assign V),
    dfsSupport p pairs a = true ↔
      ∃ vals : List V,
        List.Forall₂ (fun (val : V) (pr : String × Dom V) => val ∈ pr.2)
          vals pairs ∧
        p (setAll a ((pairs.map Prod.fst).zip vals)) = some true
  | [], a => by
    constructor
    · intro h
      refine ⟨[], List.Forall₂.nil, ?_⟩
      simpa [dfsSupport, evalPred_eq_true_iff] using h
    · rintro ⟨vals, hf, hp⟩
      cases hf
      simpa [dfsSupport, evalPred_eq_true_iff] using hp
  | (k, dom) :: rest, a => by
    simp only [dfsSupport, List.any_eq_true]
    constructor
    · rintro ⟨val, hval, hdfs⟩
      obtain ⟨vals', hf, hp⟩ := (dfsSupport_iff p rest (setA a k val)).mp hdfs
      refine ⟨val :: vals', List.Forall₂.cons hval hf, ?_⟩
      simpa [setAll] using hp
    · rintro ⟨vals, hf, hp⟩
      rw [List.forall₂_cons_right_iff] at hf
      obtain ⟨val, vals', hval, hf', rfl⟩ := hf
      refine ⟨val, hval, ?_⟩
      refine (dfsSupport_iff p rest (setA a k val)).mpr ⟨vals', hf', ?_⟩
      simpa [setAll] using hp

/-! ## Lemmas: the collection loop of `hasSupport` -/

theorem collectOthers_cons_focus {V : Type} (focusVar : String)
    (vm : VarMap V) (rest : List String) :
    collectOthers focusVar vm (focusVar :: rest) =
      collectOthers focusVar vm rest := by
  simp [collectOthers]

theorem collectOthers_cons_missing {V : Type} (focusVar v : String)
    (vm : VarMap V) (rest : List String) (hv : ¬ v = focusVar)
    (hl : vLookup vm v = none) :
    collectOthers focusVar vm (v :: rest) = none := by
  simp [collectOthers, hv, hl]

theorem collectOthers_cons_nil {V : Type} (focusVar v : String)
    (vm : VarMap V) (rest : List String) (hv : ¬ v = focusVar)
    (hl : vLookup vm v = some []) :
    collectOthers focusVar vm (v :: rest) = none := by
  simp [collectOthers, hv, hl]

theorem collectOthers_cons_dom {V : Type} (focusVar v : String)
    (vm : VarMap V) (rest : List String) (dom : Dom V) (hv : ¬ v = focusVar)
    (hl : vLookup vm v = some dom) (hd : dom ≠ []) :
    collectOthers focusVar vm (v :: rest) =
      (collectOthers focusVar vm rest).map (fun os => v :: os) := by
  simp [collectOthers, hv, hl, List.length_eq_zero, hd]

theorem collectOthers_eq_none_iff {V : Type} (focusVar : String)
    (vm : VarMap V) (l : List String) :
    collectOthers focusVar vm l = none ↔
      ∃ v, v ∈ l ∧ v ≠ focusVar ∧
        (vLookup vm v = none ∨ vLookup vm v = some []) := by
  induction l with
  | nil => simp [collectOthers]
  | cons v rest ih =>
    by_cases hv : v = focusVar
    · subst hv
      rw [collectOthers_cons_focus, ih]
      constructor
      · rintro ⟨w, hw, hne, hbad⟩
        exact ⟨w, List.mem_cons_of_mem _ hw, hne, hbad⟩
      · rintro ⟨w, hw, hne, hbad⟩
        rcases List.mem_cons.mp hw with h | h
        · exact absurd h hne
        · exact ⟨w, h, hne, hbad⟩
    · cases hl : vLookup vm v with
      | none =>
        rw [collectOthers_cons_missing focusVar v vm rest hv hl]
        constructor
        · intro _
          exact ⟨v, List.mem_cons_self v rest, hv, Or.inl hl⟩
        · intro _
          rfl
      | some dom =>
        by_cases hd : dom = []
        · subst hd
          rw [collectOthers_cons_nil focusVar v vm rest hv hl]
          constructor
          · intro _
            exact ⟨v, List.mem_cons_self v rest, hv, Or.inr hl⟩
          · intro _
            rfl
        · rw [collectOthers_cons_dom focusVar v vm rest dom hv hl hd,
            Option.map_eq_none', ih]
          constructor
          · rintro ⟨w, hw, hne, hbad⟩
            exact ⟨w, List.mem_cons_of_mem _ hw, hne, hbad⟩
          · rintro ⟨w, hw, hne, hbad⟩
            rcases List.mem_cons.mp hw with h | h
            · subst h
              rcases hbad with h2 | h2
              · rw [hl] at h2; cases h2
              · rw [hl] at h2
                injection h2 with h3
                exact absurd h3 hd
            · exact ⟨w, h, hne, hbad⟩

theorem collectOthers_eq_some {V : Type} (focusVar : String) (vm : VarMap V) :
    ∀ (l os : List String),
    collectOthers focusVar vm l = some os →
      (∀ w, w ∈ os ↔ (w ∈ l ∧ w ≠ focusVar)) ∧
      (∀ w ∈ os, ∃ dom, vLookup vm w = some dom ∧ dom ≠ [])
  | [], os => by
    intro h
    simp only [collectOthers] at h
    injection h with h
    subst h
    simp
  | v :: rest, os => by
    intro h
    by_cases hv : v = focusVar
    · subst hv
      rw [collectOthers_cons_focus] at h
      obtain ⟨hmem, hdoms⟩ := collectOthers_eq_some _ vm rest os h
      refine ⟨fun w => ?_, hdoms⟩
      rw [hmem w]
      constructor
      · rintro ⟨hw, hne⟩
        exact ⟨List.mem_cons_of_mem _ hw, hne⟩
      · rintro ⟨hw, hne⟩
        rcases List.mem_cons.mp hw with h2 | h2
        · exact absurd h2 hne
        · exact ⟨h2, hne⟩
    · cases hl : vLookup vm v with
      | none =>
        rw [collectOthers_cons_missing _ v vm rest hv hl] at h
        cases h
      | some dom =>
        by_cases hd : dom = []
        · subst hd
          rw [collectOthers_cons_nil _ v vm rest hv hl] at h
          cases h
        · rw [collectOthers_cons_dom _ v vm rest dom hv hl hd] at h
          obtain ⟨os', hrec, rfl⟩ := Option.map_eq_some'.mp h
          obtain ⟨hmem, hdoms⟩ := collectOthers_eq_some _ vm rest os' hrec
          constructor
          · intro w
            rw [List.mem_cons, hmem w]
            constructor
            · rintro (rfl | ⟨hw, hne⟩)
              · exact ⟨List.mem_cons_self _ _, hv⟩
              · exact ⟨List.mem_cons_of_mem _ hw, hne⟩
            · rintro ⟨hw, hne⟩
              rcases List.mem_cons.mp hw with h2 | h2
              · exact Or.inl h2
              · exact Or.inr ⟨h2, hne⟩
          · intro w hw
            rcases List.mem_cons.mp hw with h2 | h2
            · subst h2
              exact ⟨dom, hl, hd⟩
            · exact hdoms w h2

/-! ## Lemmas: reverse lookups over zipped choice vectors -/

theorem vLookup_rev_zip_map {V : Type} (f : String → V) :
    ∀ (names : List String) (w : String),
    vLookup ((names.zip (names.map f)).reverse) w =
      if w ∈ names then some (f w) else none
  | [], w => by simp [vLookup]
  | n :: ns, w => by
    simp only [List.map_cons, List.zip_cons_cons, List.reverse_cons]
    rw [vLookup_append, vLookup_rev_zip_map f ns w]
    by_cases hw : w ∈ ns
    · simp [hw, List.mem_cons]
    · by_cases hnw : n = w
      · subst hnw
        simp [hw, vLookup]
      · have : ¬ (w = n) := fun h => hnw h.symm
        simp [hw, hnw, this, vLookup, List.mem_cons]

theorem forall₂_zip_rev_lookup {V : Type} (D : String → Dom V) :
    ∀ (names : List String) (vals : List V),
    List.Forall₂ (fun (val : V) (name : String) => val ∈ D name) vals names →
      (∀ w x, vLookup ((names.zip vals).reverse) w = some x → x ∈ D w) ∧
      (∀ w, w ∈ names → (vLookup ((names.zip vals).reverse) w).isSome)
  | [], vals => by
    intro h
    cases h
    exact ⟨fun w x hx => by simp [vLookup] at hx, fun w hw => by simp at hw⟩
  | n :: ns, vals => by
    intro h
    rw [List.forall₂_cons_right_iff] at h
    obtain ⟨val, vals', hval, h', rfl⟩ := h
    obtain ⟨ihA, ihB⟩ := forall₂_zip_rev_lookup D ns vals' h'
    constructor
    · intro w x hx
      rw [List.zip_cons_cons, List.reverse_cons, vLookup_append] at hx
      cases hrec : vLookup ((ns.zip vals').reverse) w with
      | some y =>
        rw [hrec] at hx
        injection hx with hx
        exact hx ▸ ihA w y hrec
      | none =>
        rw [hrec] at hx
        simp only [vLookup] at hx
        by_cases hnw : n = w
        · subst hnw
          simp at hx
          subst hx
          exact hval
        · simp [hnw] at hx
    · intro w hw
      rw [List.zip_cons_cons, List.reverse_cons, vLookup_append]
      cases hrec : vLookup ((ns.zip vals').reverse) w with
      | some y => simp
      | none =>
        rcases List.mem_cons.mp hw with rfl | hw2
        · simp [vLookup]
        · have := ihB w hw2
          rw [hrec] at this
          cases this

theorem setAll_tuple_apply {V : Type} (fv : String) (fval : V)
    (l : List (String × V)) (w : String) :
    setAll (fun _ => none) ((fv, fval) :: l) w =
      match vLookup l.reverse w with
      | some x => some x
      | none => if fv = w then some fval else none := by
  rw [setAll_apply, List.reverse_cons, vLookup_append]
  cases vLookup l.reverse w with
  | some x => rfl
  | none => by_cases h : fv = w <;> simp [vLookup, h]

/-- C4 helper: the full characterization of `hasSupport`.  Shared with
the soundness development. -/
theorem hasSupport_char {V : Type} (focusVar : String) (focusVal : V)
    (C : NaryC V) (vm : VarMap V) :
    (hasSupport focusVar focusVal C vm = true ↔
      ∃ f : String → V,
        (∀ v, v ∈ C.vars → v ≠ focusVar →
          ∃ dom, vLookup vm v = some dom ∧ f v ∈ dom) ∧
        C.predicate (fun w =>
          if w = focusVar then some focusVal
          else if w ∈ C.vars then some (f w) else none) = some true) ∧
    ((∃ v, v ∈ C.vars ∧ v ≠ focusVar ∧
        (vLookup vm v = none ∨ vLookup vm v = some [])) →
      hasSupport focusVar focusVal C vm = false) := by
  constructor
  · cases hco : collectOthers focusVar vm C.vars with
    | none =>
      have hfalse : hasSupport focusVar focusVal C vm = false := by
        simp [hasSupport, hco]
      rw [hfalse]
      constructor
      · intro h
        simp at h
      · rintro ⟨f, hf, _⟩
        obtain ⟨v, hv, hne, hbad⟩ :=
          (collectOthers_eq_none_iff focusVar vm C.vars).mp hco
        obtain ⟨dom, hdom, hmemf⟩ := hf v hv hne
        rcases hbad with h2 | h2
        · rw [hdom] at h2; cases h2
        · rw [hdom] at h2
          injection h2 with h3
          subst h3
          cases hmemf
    | some others =>
      obtain ⟨hmem, hdoms⟩ := collectOthers_eq_some focusVar vm C.vars others hco
      have hhs : hasSupport focusVar focusVal C vm =
          dfsSupport C.predicate
            ((focusVar, [focusVal]) ::
              (sortLe (fun a b => leInf (lenInf vm a) (lenInf vm b)) others).map
                (fun v => (v, (vLookup vm v).getD [])))
            (fun _ => none) := by
        simp [hasSupport, hco]
      set sorted := sortLe (fun a b => leInf (lenInf vm a) (lenInf vm b)) others
        with hsdef
      have hmem2 : ∀ v, v ∈ sorted ↔ (v ∈ C.vars ∧ v ≠ focusVar) := by
        intro v
        rw [hsdef, mem_sortLe]
        exact hmem v
      have hdoms2 : ∀ v ∈ sorted, ∃ dom, vLookup vm v = some dom ∧ dom ≠ [] := by
        intro v hv
        rw [hsdef, mem_sortLe] at hv
        exact hdoms v hv
      have hfocus : focusVar ∉ sorted := by
        intro h
        exact ((hmem2 focusVar).mp h).2 rfl
      have hnames : (((focusVar, [focusVal]) ::
          sorted.map (fun v => (v, (vLookup vm v).getD []))).map Prod.fst) =
          focusVar :: sorted := by
        have hid : ∀ l : List String,
            List.map (Prod.fst ∘ fun v => (v, (vLookup vm v).getD [])) l = l := by
          intro l
          induction l with
          | nil => rfl
          | cons x xs ih => simp only [List.map_cons, ih, Function.comp_apply]
        simp only [List.map_cons, List.map_map, hid]
      rw [hhs, dfsSupport_iff]
      constructor
      · rintro ⟨vals, hf, hp⟩
        rw [List.forall₂_cons_right_iff] at hf
        obtain ⟨v0, vals', hv0, hf', rfl⟩ := hf
        have hv0' : v0 = focusVal := by simpa using hv0
        rw [hv0'] at hp
        clear hv0 hv0'
        rw [List.forall₂_map_right_iff] at hf'
        obtain ⟨ihA, ihB⟩ :=
          forall₂_zip_rev_lookup (fun v => (vLookup vm v).getD []) sorted vals' hf'
        have hkeys : vKeys ((sorted.zip vals').reverse) = sorted.reverse := by
          show ((sorted.zip vals').reverse).map Prod.fst = sorted.reverse
          rw [List.map_reverse, List.map_fst_zip]
          exact le_of_eq hf'.length_eq.symm
        have hlkF : vLookup ((sorted.zip vals').reverse) focusVar = none := by
          apply vLookup_eq_none_of_not_mem
          rw [hkeys, List.mem_reverse]
          exact hfocus
        refine ⟨fun w => (vLookup ((sorted.zip vals').reverse) w).getD focusVal,
          ?_, ?_⟩
        · intro v hvC hvne
          have hv : v ∈ sorted := (hmem2 v).mpr ⟨hvC, hvne⟩
          obtain ⟨x, hx⟩ := Option.isSome_iff_exists.mp (ihB v hv)
          obtain ⟨dom, hdom, hdne⟩ := hdoms2 v hv
          have hxd : x ∈ (vLookup vm v).getD [] := ihA v x hx
          rw [hdom] at hxd
          refine ⟨dom, hdom, ?_⟩
          show (vLookup ((sorted.zip vals').reverse) v).getD focusVal ∈ dom
          rw [hx]
          simpa using hxd
        · have htup : setAll (fun (_ : String) => (none : Option V))
              (((((focusVar, [focusVal]) ::
                sorted.map (fun v => (v, (vLookup vm v).getD []))).map
                  Prod.fst)).zip (focusVal :: vals')) = (fun w =>
                if w = focusVar then some focusVal
                else if w ∈ C.vars then
                  some ((vLookup ((sorted.zip vals').reverse) w).getD focusVal)
                else none) := by
            funext w
            rw [hnames, List.zip_cons_cons, setAll_tuple_apply]
            by_cases hw : w = focusVar
            · subst hw
              rw [hlkF]
              simp
            · by_cases hws : w ∈ sorted
              · obtain ⟨x, hx⟩ := Option.isSome_iff_exists.mp (ihB w hws)
                have hC := ((hmem2 w).mp hws).1
                rw [hx]
                simp [hw, hC, hx]
              · have hlkw : vLookup ((sorted.zip vals').reverse) w = none := by
                  apply vLookup_eq_none_of_not_mem
                  rw [hkeys, List.mem_reverse]
                  exact hws
                have hnC : ¬ (w ∈ C.vars) := fun hC =>
                  hws ((hmem2 w).mpr ⟨hC, hw⟩)
                have hfw : ¬ (focusVar = w) := fun h => hw h.symm
                rw [hlkw]
                simp [hw, hnC, hfw]
          rw [htup] at hp
          exact hp
      · rintro ⟨f, hcond, hp⟩
        refine ⟨focusVal :: sorted.map f, ?_, ?_⟩
        · refine List.Forall₂.cons (by simp) ?_
          rw [List.forall₂_map_right_iff, List.forall₂_map_left_iff,
            List.forall₂_same]
          intro v hv
          obtain ⟨hvC, hvne⟩ := (hmem2 v).mp hv
          obtain ⟨dom, hdom, hfv⟩ := hcond v hvC hvne
          simp only [hdom, Option.getD_some]
          exact hfv
        · have htup : setAll (fun (_ : String) => (none : Option V))
              (((((focusVar, [focusVal]) ::
                sorted.map (fun v => (v, (vLookup vm v).getD []))).map
                  Prod.fst)).zip (focusVal :: sorted.map f)) = (fun w =>
                if w = focusVar then some focusVal
                else if w ∈ C.vars then some (f w) else none) := by
            funext w
            rw [hnames, List.zip_cons_cons, setAll_tuple_apply,
              vLookup_rev_zip_map]
            by_cases hw : w = focusVar
            · subst hw
              simp [hfocus]
            · by_cases hws : w ∈ sorted
              · have hC := ((hmem2 w).mp hws).1
                simp [hws, hw, hC]
              · have hnC : ¬ (w ∈ C.vars) := fun hC =>
                  hws ((hmem2 w).mpr ⟨hC, hw⟩)
                have hfw : ¬ (focusVar = w) := fun h => hw h.symm
                simp [hws, hw, hnC, hfw]
          rw [htup]
          exact hp
  · intro hbad
    have hco := (collectOthers_eq_none_iff focusVar vm C.vars).mpr hbad
    simp [hasSupport, hco]

/-- C3: a predicate that throws (`none`) behaves exactly as one returning
a false verdict on the same tuples: the Support Oracle keeps searching
other tuples, and an always-throwing predicate yields no support. -/
theorem hasSupport_fail_closed {V : Type} (focusVar : String) (focusVal : V)
    (C : NaryC V) (vm : VarMap V) :
    hasSupport focusVar focusVal
      { vars := C.vars, predicate := fun t => some (evalPred C.predicate t) }
      vm = hasSupport focusVar focusVal C vm ∧
    ((∀ t, C.predicate t = none) →
      hasSupport focusVar focusVal C vm = false) := by
  have hdfs : ∀ (pairs : List (String × Dom V)) (a : Assign V),
      dfsSupport (fun t => some (evalPred C.predicate t)) pairs a =
        dfsSupport C.predicate pairs a := by
    intro pairs
    induction pairs with
    | nil =>
      intro a
      simp [dfsSupport, evalPred]
    | cons kv rest ih =>
      intro a
      obtain ⟨k, dom⟩ := kv
      simp only [dfsSupport, ih]
  constructor
  · unfold hasSupport
    cases hco : collectOthers focusVar vm C.vars with
    | none => rfl
    | some others => simp only [hdfs]
  · intro hnone
    have h1 : ∀ (pairs : List (String × Dom V)) (a : Assign V),
        dfsSupport C.predicate pairs a = false := by
      intro pairs
      induction pairs with
      | nil =>
        intro a
        simp [dfsSupport, evalPred, hnone]
      | cons kv rest ih =>
        intro a
        obtain ⟨k, dom⟩ := kv
        simp [dfsSupport, ih]
    unfold hasSupport
    cases hco : collectOthers focusVar vm C.vars with
    | none => rfl
    | some others => simp only [h1]

theorem hasSupport_fail_closed_witness :
    hasSupport "x" (0 : Nat) ⟨["x"], fun _ => none⟩ [] = false :=
  (hasSupport_fail_closed "x" 0 ⟨["x"], fun _ => none⟩ []).2 (fun _ => rfl)

/-- C4: `hasSupport(x, v, C, variables)` returns `true` iff some choice of
one value per other participant (from its current domain) makes the
predicate return `true` on the combined tuple with `x` bound to `v`
(`= some true`: a truthy, non-throwing verdict); and a missing or empty
domain of any other participant forces `false`. -/
theorem hasSupport_correct {V : Type} (focusVar : String) (focusVal : V)
    (C : NaryC V) (vm : VarMap V) :
    (hasSupport focusVar focusVal C vm = true ↔
      ∃ f : String → V,
        (∀ v, v ∈ C.vars → v ≠ focusVar →
          ∃ dom, vLookup vm v = some dom ∧ f v ∈ dom) ∧
        C.predicate (fun w =>
          if w = focusVar then some focusVal
          else if w ∈ C.vars then some (f w) else none) = some true) ∧
    ((∃ v, v ∈ C.vars ∧ v ≠ focusVar ∧
        (vLookup vm v = none ∨ vLookup vm v = some [])) →
      hasSupport focusVar focusVal C vm = false) :=
  hasSupport_char focusVar focusVal C vm

theorem hasSupport_correct_witness :
    hasSupport "x" (1 : Nat)
      ⟨["x", "y"], fun a => some (decide (a "x" = some 1 ∧ a "y" = some 2))⟩
      [("y", [2, 3])] = true :=
  (hasSupport_correct "x" 1
    ⟨["x", "y"], fun a => some (decide (a "x" = some 1 ∧ a "y" = some 2))⟩
    [("y", [2, 3])]).1.mpr
    ⟨fun _ => 2,
      by
        intro v hv hne
        simp only [List.mem_cons, List.mem_singleton, List.not_mem_nil,
          or_false] at hv
        rcases hv with rfl | rfl
        · exact absurd rfl hne
        · exact ⟨[2, 3], by decide, by decide⟩,
      by decide⟩

/-! ## Termination of the propagation loops -/

theorem runAC3Loop_isSome {V : Type} (cs : List (BinC V)) :
    ∀ (fuel : Nat) (queue : List (BinC V)) (vm : VarMap V),
    domSum vm * (cs.length + 1) + queue.length < fuel →
    (runAC3Loop cs fuel queue vm).isSome
  | 0, queue, vm => by
    intro h
    exact absurd h (Nat.not_lt_zero _)
  | fuel + 1, [], vm => by
    intro _
    simp [runAC3Loop]
  | fuel + 1, c :: rest, vm => by
    intro h
    cases hh : vLookup vm c.head with
    | none =>
      have := runAC3Loop_isSome cs fuel rest vm (by simp at h; omega)
      simpa [runAC3Loop, hh] using this
    | some hv =>
      cases ht : vLookup vm c.tail with
      | none =>
        have := runAC3Loop_isSome cs fuel rest vm (by simp at h; omega)
        simpa [runAC3Loop, hh, ht] using this
      | some tv =>
        simp only [runAC3Loop, hh, ht]
        set valid := tv.filter (fun t => hv.any (fun h => c.pred h t)) with hvdef
        have hds := domSum_set vm c.tail tv valid ht
        by_cases hlen : valid.length = tv.length
        · rw [if_pos hlen]
          apply runAC3Loop_isSome cs fuel rest (vSet vm c.tail valid)
          have hd2 : domSum (vSet vm c.tail valid) = domSum vm := by omega
          rw [hd2]
          simp at h
          omega
        · rw [if_neg hlen]
          by_cases hnil : valid.length = 0
          · rw [if_pos hnil]
            simp
          · rw [if_neg hnil]
            apply runAC3Loop_isSome cs fuel
              (rest ++ incomingConstraints cs c.tail) (vSet vm c.tail valid)
            have hle : valid.length ≤ tv.length := by
              rw [hvdef]
              exact List.length_filter_le _ tv
            have hlt : valid.length < tv.length := lt_of_le_of_ne hle hlen
            have hinc : (incomingConstraints cs c.tail).length ≤ cs.length :=
              List.length_filter_le _ cs
            have hdlt : domSum (vSet vm c.tail valid) + 1 ≤ domSum vm := by
              omega
            have hmul : (domSum (vSet vm c.tail valid) + 1) * (cs.length + 1) ≤
                domSum vm * (cs.length + 1) :=
              Nat.mul_le_mul_right _ hdlt
            rw [Nat.succ_mul] at hmul
            simp only [List.length_append, List.length_cons] at h ⊢
            omega

theorem runAC3_eq {V : Type} (cs : List (BinC V)) (vm : VarMap V) :
    runAC3Loop cs (ac3Fuel cs vm) cs vm = some (runAC3 cs vm) := by
  have h := runAC3Loop_isSome cs (ac3Fuel cs vm) cs vm
    (by unfold ac3Fuel; omega)
  obtain ⟨x, hx⟩ := Option.isSome_iff_exists.mp h
  rw [hx]
  unfold runAC3
  rw [hx]
  rfl

theorem reviseVars_step {V : Type} (C : NaryC V) :
    ∀ (vs : List String) (vm : VarMap V) (changed : Bool)
      (res : Bool × VarMap V),
    reviseVars C vs vm changed = some res →
      domSum res.2 ≤ domSum vm ∧
      (res.1 = false → res.2 = vm) ∧
      (changed = true → res.1 = true) ∧
      ((changed = false ∧ res.1 = true) → domSum res.2 < domSum vm)
  | [], vm, changed, res => by
    intro h
    simp only [reviseVars] at h
    injection h with h
    subst h
    refine ⟨le_refl _, fun hf => rfl, fun ht => ht, ?_⟩
    rintro ⟨h1, h2⟩
    rw [h1] at h2
    cases h2
  | v :: rest, vm, changed, res => by
    intro h
    cases hl : vLookup vm v with
    | none =>
      simp only [reviseVars, hl] at h
      exact reviseVars_step C rest vm changed res h
    | some dom =>
      simp only [reviseVars, hl] at h
      by_cases hlen : (dom.filter (fun val => hasSupport v val C vm)).length =
          dom.length
      · rw [if_pos hlen] at h
        exact reviseVars_step C rest vm changed res h
      · rw [if_neg hlen] at h
        by_cases hnil : (dom.filter (fun val => hasSupport v val C vm)).length = 0
        · rw [if_pos hnil] at h
          cases h
        · rw [if_neg hnil] at h
          obtain ⟨ih1, ih2, ih3, _⟩ := reviseVars_step C rest
            (vSet vm v (dom.filter (fun val => hasSupport v val C vm))) true res h
          have hle : (dom.filter (fun val => hasSupport v val C vm)).length ≤
              dom.length := List.length_filter_le _ dom
          have hds := domSum_set vm v dom
            (dom.filter (fun val => hasSupport v val C vm)) hl
          have hlt : domSum (vSet vm v
              (dom.filter (fun val => hasSupport v val C vm))) < domSum vm := by
            omega
          refine ⟨by omega, ?_, fun _ => ih3 rfl, fun _ => by omega⟩
          intro hf
          rw [ih3 rfl] at hf
          cases hf

theorem foldl_pushUnique_spec :
    ∀ (rs q : List Nat),
    ∃ extra, rs.foldl pushUnique q = q ++ extra ∧ extra.Nodup ∧
      (∀ x ∈ extra, x ∈ rs ∧ x ∉ q) ∧
      (∀ x ∈ rs, x ∈ rs.foldl pushUnique q)
  | [], q => ⟨[], by simp⟩
  | r :: rs, q => by
    by_cases hr : r ∈ q
    · have hpu : pushUnique q r = q := by simp [pushUnique, hr]
      obtain ⟨extra, he, hnd, hmem, hall⟩ := foldl_pushUnique_spec rs q
      refine ⟨extra, ?_, hnd, ?_, ?_⟩
      · simp only [List.foldl_cons, hpu, he]
      · intro x hx
        obtain ⟨h1, h2⟩ := hmem x hx
        exact ⟨List.mem_cons_of_mem _ h1, h2⟩
      · intro x hx
        simp only [List.foldl_cons, hpu]
        rcases List.mem_cons.mp hx with rfl | hx2
        · rw [he]; exact List.mem_append.mpr (Or.inl hr)
        · exact hall x hx2
    · have hpu : pushUnique q r = q ++ [r] := by simp [pushUnique, hr]
      obtain ⟨extra, he, hnd, hmem, hall⟩ := foldl_pushUnique_spec rs (q ++ [r])
      refine ⟨r :: extra, ?_, ?_, ?_, ?_⟩
      · simp only [List.foldl_cons, hpu, he, List.append_assoc,
          List.singleton_append]
      · refine List.Nodup.cons ?_ hnd
        intro hrx
        exact (hmem r hrx).2 (List.mem_append.mpr (Or.inr (List.mem_singleton.mpr rfl)))
      · intro x hx
        rcases List.mem_cons.mp hx with rfl | hx2
        · exact ⟨List.mem_cons_self _ _, hr⟩
        · obtain ⟨h1, h2⟩ := hmem x hx2
          refine ⟨List.mem_cons_of_mem _ h1, fun hq => h2 ?_⟩
          exact List.mem_append.mpr (Or.inl hq)
      · intro x hx
        simp only [List.foldl_cons, hpu]
        rcases List.mem_cons.mp hx with rfl | hx2
        · rw [he]
          exact List.mem_append.mpr (Or.inl (List.mem_append.mpr
            (Or.inr (List.mem_singleton.mpr rfl))))
        · exact hall x hx2

theorem enqueueRelated_spec (index : VMap (List Nat)) :
    ∀ (vs : List String) (q : List Nat),
    ∃ extra, enqueueRelated index vs q = q ++ extra ∧ extra.Nodup ∧
      (∀ x ∈ extra, x ∉ q ∧ ∃ v ∈ vs, x ∈ (vLookup index v).getD []) ∧
      (∀ v ∈ vs, ∀ x ∈ (vLookup index v).getD [],
        x ∈ enqueueRelated index vs q)
  | [], q => ⟨[], by simp [enqueueRelated]⟩
  | v :: vs, q => by
    obtain ⟨e1, he1, hnd1, hmem1, hall1⟩ :=
      foldl_pushUnique_spec ((vLookup index v).getD []) q
    obtain ⟨e2, he2, hnd2, hmem2, hall2⟩ := enqueueRelated_spec index vs (q ++ e1)
    have hstep : enqueueRelated index (v :: vs) q =
        enqueueRelated index vs (q ++ e1) := by
      simp only [enqueueRelated, List.foldl_cons]
      rw [← he1]
    refine ⟨e1 ++ e2, ?_, ?_, ?_, ?_⟩
    · rw [hstep, he2, List.append_assoc]
    · refine List.Nodup.append hnd1 hnd2 ?_
      intro x hx1 hx2
      exact (hmem2 x hx2).1 (List.mem_append.mpr (Or.inr hx1))
    · intro x hx
      rcases List.mem_append.mp hx with hx1 | hx2
      · obtain ⟨h1, h2⟩ := hmem1 x hx1
        exact ⟨h2, v, List.mem_cons_self _ _, h1⟩
      · obtain ⟨h1, h2⟩ := hmem2 x hx2
        refine ⟨fun hq => h1 (List.mem_append.mpr (Or.inl hq)), ?_⟩
        obtain ⟨w, hw, hx3⟩ := h2
        exact ⟨w, List.mem_cons_of_mem _ hw, hx3⟩
    · intro w hw x hx
      rw [hstep]
      rcases List.mem_cons.mp hw with rfl | hw2
      · have : x ∈ q ++ e1 := by rw [← he1]; exact hall1 x hx
        rw [he2]
        exact List.mem_append.mpr (Or.inl this)
      · exact hall2 w hw2 x hx

theorem mem_pushIdx_foldl (i : Nat) :
    ∀ (ws : List String) (idx : VMap (List Nat)) (v : String) (j : Nat),
    (j ∈ (vLookup (ws.foldl (fun a w => pushIdx a w i) idx) v).getD [] ↔
      (j ∈ (vLookup idx v).getD [] ∨ (j = i ∧ v ∈ ws)))
  | [], idx, v, j => by simp
  | w :: ws, idx, v, j => by
    rw [List.foldl_cons, mem_pushIdx_foldl i ws (pushIdx idx w i) v j]
    by_cases hvw : v = w
    · subst hvw
      have hlk : vLookup (pushIdx idx v i) v =
          some ((vLookup idx v).getD [] ++ [i]) := by
        unfold pushIdx
        exact vLookup_set_self idx v _
      rw [hlk]
      simp only [Option.getD_some, List.mem_append, List.mem_cons,
        List.not_mem_nil, or_false, eq_self_iff_true, true_or, and_true]
      tauto
    · have hlk : vLookup (pushIdx idx w i) v = vLookup idx v := by
        unfold pushIdx
        exact vLookup_set_ne idx w v _ hvw
      rw [hlk]
      simp only [List.mem_cons, hvw, false_or]

theorem mem_buildIdxFrom {V : Type} :
    ∀ (ncs : List (NaryC V)) (i : Nat) (idx : VMap (List Nat)) (v : String)
      (j : Nat),
    (j ∈ (vLookup (buildIdxFrom i ncs idx) v).getD [] ↔
      (j ∈ (vLookup idx v).getD [] ∨
        ∃ k C, ncs[k]? = some C ∧ v ∈ C.vars ∧ j = i + k))
  | [], i, idx, v, j => by
    simp [buildIdxFrom]
  | C0 :: rest, i, idx, v, j => by
    rw [show buildIdxFrom i (C0 :: rest) idx =
      buildIdxFrom (i + 1) rest
        (C0.vars.foldl (fun a w => pushIdx a w i) idx) from rfl]
    rw [mem_buildIdxFrom rest (i + 1) _ v j, mem_pushIdx_foldl i C0.vars idx v j]
    constructor
    · rintro ((h1 | ⟨rfl, h2⟩) | ⟨k, C, hk, hv, rfl⟩)
      · exact Or.inl h1
      · exact Or.inr ⟨0, C0, by simp, h2, by omega⟩
      · refine Or.inr ⟨k + 1, C, ?_, hv, by omega⟩
        simpa using hk
    · rintro (h1 | ⟨k, C, hk, hv, rfl⟩)
      · exact Or.inl (Or.inl h1)
      · cases k with
        | zero =>
          simp only [List.getElem?_cons_zero] at hk
          injection hk with hk
          subst hk
          exact Or.inl (Or.inr ⟨by omega, hv⟩)
        | succ k' =>
          refine Or.inr ⟨k', C, ?_, hv, by omega⟩
          simpa using hk

theorem mem_buildNaryIndex {V : Type} (ncs : List (NaryC V)) (v : String)
    (j : Nat) :
    j ∈ (vLookup (buildNaryIndex ncs) v).getD [] ↔
      ∃ C, ncs[j]? = some C ∧ v ∈ C.vars := by
  unfold buildNaryIndex
  rw [mem_buildIdxFrom ncs 0 [] v j]
  simp only [vLookup, Option.getD_none, List.not_mem_nil, false_or]
  constructor
  · rintro ⟨k, C, hk, hv, rfl⟩
    exact ⟨C, by simpa using hk, hv⟩
  · rintro ⟨C, hk, hv⟩
    exact ⟨j, C, hk, hv, by omega⟩

theorem nodup_bounded_length_le (q : List Nat) (N : Nat) (hnd : q.Nodup)
    (hb : ∀ x ∈ q, x < N) : q.length ≤ N := by
  have h1 : q.toFinset ⊆ Finset.range N := by
    intro x hx
    rw [Finset.mem_range]
    exact hb x (List.mem_toFinset.mp hx)
  have h2 := Finset.card_le_card h1
  rw [List.toFinset_card_of_nodup hnd, Finset.card_range] at h2
  exact h2

theorem runGACLoop_isSome {V : Type} (csp : Problem V) (index : VMap (List Nat))
    (hidx : ∀ v j, j ∈ (vLookup index v).getD [] →
      j < csp.naryConstraints.length) :
    ∀ (fuel : Nat) (queue : List Nat) (vm : VarMap V),
    queue.Nodup → (∀ x ∈ queue, x < csp.naryConstraints.length) →
    domSum vm * (csp.naryConstraints.length + 1) + queue.length < fuel →
    (runGACLoop csp index fuel queue vm).isSome
  | 0, queue, vm => by
    intro _ _ h
    exact absurd h (Nat.not_lt_zero _)
  | fuel + 1, [], vm => by
    intro _ _ _
    simp [runGACLoop]
  | fuel + 1, i :: rest, vm => by
    intro hnd hb h
    cases hC : csp.naryConstraints[i]? with
    | none =>
      have := runGACLoop_isSome csp index hidx fuel rest vm
        (List.Nodup.of_cons hnd)
        (fun x hx => hb x (List.mem_cons_of_mem _ hx))
        (by simp at h; omega)
      simpa [runGACLoop, hC] using this
    | some C =>
      cases hrev : reviseVars C C.vars vm false with
      | none => simp [runGACLoop, hC, hrev]
      | some res =>
        obtain ⟨changedAny, vm'⟩ := res
        obtain ⟨h1, h2, _, h4⟩ := reviseVars_step C C.vars vm false
          (changedAny, vm') hrev
        cases changedAny with
        | false =>
          have hvm : vm' = vm := h2 rfl
          subst hvm
          have := runGACLoop_isSome csp index hidx fuel rest vm'
            (List.Nodup.of_cons hnd)
            (fun x hx => hb x (List.mem_cons_of_mem _ hx))
            (by simp at h; omega)
          simpa [runGACLoop, hC, hrev] using this
        | true =>
          have hlt : domSum vm' < domSum vm := h4 ⟨rfl, rfl⟩
          obtain ⟨extra, he, hnde, hmeme, _⟩ :=
            enqueueRelated_spec index C.vars rest
          have hndq : (enqueueRelated index C.vars rest).Nodup := by
            rw [he]
            refine List.Nodup.append (List.Nodup.of_cons hnd) hnde ?_
            intro x hx1 hx2
            exact (hmeme x hx2).1 hx1
          have hbq : ∀ x ∈ enqueueRelated index C.vars rest,
              x < csp.naryConstraints.length := by
            intro x hx
            rw [he] at hx
            rcases List.mem_append.mp hx with hx1 | hx2
            · exact hb x (List.mem_cons_of_mem _ hx1)
            · obtain ⟨_, w, _, hw2⟩ := hmeme x hx2
              exact hidx w x hw2
          have hql : (enqueueRelated index C.vars rest).length ≤
              csp.naryConstraints.length :=
            nodup_bounded_length_le _ _ hndq hbq
          have := runGACLoop_isSome csp index hidx fuel
            (enqueueRelated index C.vars rest) vm' hndq hbq (by
              have hdlt : domSum vm' + 1 ≤ domSum vm := hlt
              have hmul : (domSum vm' + 1) * (csp.naryConstraints.length + 1) ≤
                  domSum vm * (csp.naryConstraints.length + 1) :=
                Nat.mul_le_mul_right _ hdlt
              rw [Nat.succ_mul] at hmul
              simp only [List.length_cons] at h
              omega)
          simpa [runGACLoop, hC, hrev] using this

theorem runGAC_eq {V : Type} (csp : Problem V) (vm : VarMap V) :
    runGACLoop csp (buildNaryIndex csp.naryConstraints) (gacFuel csp vm)
      (List.range csp.naryConstraints.length) vm = some (runGAC csp vm) := by
  have hidx : ∀ v j,
      j ∈ (vLookup (buildNaryIndex csp.naryConstraints) v).getD [] →
      j < csp.naryConstraints.length := by
    intro v j hj
    obtain ⟨C, hC, _⟩ := (mem_buildNaryIndex csp.naryConstraints v j).mp hj
    exact (List.getElem?_eq_some.mp hC).1
  have h := runGACLoop_isSome csp (buildNaryIndex csp.naryConstraints) hidx
    (gacFuel csp vm) (List.range csp.naryConstraints.length) vm
    (List.nodup_range _) (fun x hx => List.mem_range.mp hx)
    (by unfold gacFuel; simp only [List.length_range]; omega)
  obtain ⟨x, hx⟩ := Option.isSome_iff_exists.mp h
  rw [hx]
  unfold runGAC
  rw [hx]
  rfl

/-- C10: both consistency work-queue loops halt: with the computed fuel
(`ac3Fuel` / `gacFuel`, finite because domains only shrink and each
re-enqueue follows a strict shrink) the AC-3 loop and the GAC loop
return a result, and `enforceConsistency`'s phases `runAC3` / `runGAC`
are exactly those results. -/
theorem consistency_terminates {V : Type} :
    (∀ (cs : List (BinC V)) (vm : VarMap V),
      runAC3Loop cs (ac3Fuel cs vm) cs vm = some (runAC3 cs vm)) ∧
    (∀ (csp : Problem V) (vm : VarMap V),
      runGACLoop csp (buildNaryIndex csp.naryConstraints) (gacFuel csp vm)
        (List.range csp.naryConstraints.length) vm = some (runGAC csp vm)) :=
  ⟨fun cs vm => runAC3_eq cs vm, fun csp vm => runGAC_eq csp vm⟩

theorem consistency_terminates_witness :
    runAC3Loop ([] : List (BinC Nat)) (ac3Fuel [] [("x", [1])]) []
      [("x", [1])] = some (runAC3 [] [("x", [1])]) :=
  consistency_terminates.1 [] [("x", [1])]

/-! ## Monotonicity of one consistency pass -/

/-- `vmSub m' m`: same keys in the same order, and every domain of `m'`
is a subsequence of the corresponding domain of `m`. -/
def vmSub {V : Type} (m' m : VarMap V) : Prop :=
  vKeys m' = vKeys m ∧
  ∀ k d', vLookup m' k = some d' →
    ∃ d, vLookup m k = some d ∧ d'.Sublist d

theorem vmSub_refl {V : Type} (m : VarMap V) : vmSub m m :=
  ⟨rfl, fun _k d' h => ⟨d', h, List.Sublist.refl d'⟩⟩

theorem vmSub_trans {V : Type} {m1 m2 m3 : VarMap V}
    (h12 : vmSub m1 m2) (h23 : vmSub m2 m3) : vmSub m1 m3 := by
  refine ⟨h12.1.trans h23.1, fun k d' h => ?_⟩
  obtain ⟨d2, hd2, hs2⟩ := h12.2 k d' h
  obtain ⟨d3, hd3, hs3⟩ := h23.2 k d2 hd2
  exact ⟨d3, hd3, hs2.trans hs3⟩

theorem vmSub_set {V : Type} (m : VarMap V) (k : String) (d d' : Dom V)
    (hl : vLookup m k = some d) (hs : d'.Sublist d) :
    vmSub (vSet m k d') m := by
  constructor
  · exact vKeys_set m k d' (by rw [hl]; rfl)
  · intro k' e he
    by_cases hk : k' = k
    · subst hk
      rw [vLookup_set_self] at he
      injection he with he
      subst he
      exact ⟨d, hl, hs⟩
    · rw [vLookup_set_ne m k k' d' hk] at he
      exact ⟨e, he, List.Sublist.refl e⟩

theorem runAC3Loop_vmSub {V : Type} (cs : List (BinC V)) :
    ∀ (fuel : Nat) (queue : List (BinC V)) (vm vm' : VarMap V),
    runAC3Loop cs fuel queue vm = some (some vm') → vmSub vm' vm
  | 0, queue, vm, vm' => by
    intro h
    cases h
  | fuel + 1, [], vm, vm' => by
    intro h
    simp only [runAC3Loop] at h
    injection h with h
    injection h with h
    subst h
    exact vmSub_refl vm
  | fuel + 1, c :: rest, vm, vm' => by
    intro h
    cases hh : vLookup vm c.head with
    | none =>
      simp only [runAC3Loop, hh] at h
      exact runAC3Loop_vmSub cs fuel rest vm vm' h
    | some hv =>
      cases ht : vLookup vm c.tail with
      | none =>
        simp only [runAC3Loop, hh, ht] at h
        exact runAC3Loop_vmSub cs fuel rest vm vm' h
      | some tv =>
        simp only [runAC3Loop, hh, ht] at h
        have hsub : vmSub (vSet vm c.tail
            (tv.filter (fun t => hv.any (fun h => c.pred h t)))) vm :=
          vmSub_set vm c.tail tv _ ht (List.filter_sublist tv)
        by_cases hlen : (tv.filter (fun t => hv.any (fun h => c.pred h t))).length
            = tv.length
        · rw [if_pos hlen] at h
          exact vmSub_trans (runAC3Loop_vmSub cs fuel rest _ vm' h) hsub
        · rw [if_neg hlen] at h
          by_cases hnil : (tv.filter
              (fun t => hv.any (fun h => c.pred h t))).length = 0
          · rw [if_pos hnil] at h
            injection h with h
            cases h
          · rw [if_neg hnil] at h
            exact vmSub_trans (runAC3Loop_vmSub cs fuel _ _ vm' h) hsub

theorem reviseVars_vmSub {V : Type} (C : NaryC V) :
    ∀ (vs : List String) (vm : VarMap V) (changed : Bool)
      (res : Bool × VarMap V),
    reviseVars C vs vm changed = some res → vmSub res.2 vm
  | [], vm, changed, res => by
    intro h
    simp only [reviseVars] at h
    injection h with h
    subst h
    exact vmSub_refl vm
  | v :: rest, vm, changed, res => by
    intro h
    cases hl : vLookup vm v with
    | none =>
      simp only [reviseVars, hl] at h
      exact reviseVars_vmSub C rest vm changed res h
    | some dom =>
      simp only [reviseVars, hl] at h
      by_cases hlen : (dom.filter (fun val => hasSupport v val C vm)).length =
          dom.length
      · rw [if_pos hlen] at h
        exact reviseVars_vmSub C rest vm changed res h
      · rw [if_neg hlen] at h
        by_cases hnil : (dom.filter (fun val => hasSupport v val C vm)).length = 0
        · rw [if_pos hnil] at h
          cases h
        · rw [if_neg hnil] at h
          have hsub : vmSub (vSet vm v
              (dom.filter (fun val => hasSupport v val C vm))) vm :=
            vmSub_set vm v dom _ hl (List.filter_sublist dom)
          exact vmSub_trans (reviseVars_vmSub C rest _ true res h) hsub

theorem runGACLoop_vmSub {V : Type} (csp : Problem V) (index : VMap (List Nat)) :
    ∀ (fuel : Nat) (queue : List Nat) (vm vm' : VarMap V),
    runGACLoop csp index fuel queue vm = some (some vm') → vmSub vm' vm
  | 0, queue, vm, vm' => by
    intro h
    cases h
  | fuel + 1, [], vm, vm' => by
    intro h
    simp only [runGACLoop] at h
    injection h with h
    injection h with h
    subst h
    exact vmSub_refl vm
  | fuel + 1, i :: rest, vm, vm' => by
    intro h
    cases hC : csp.naryConstraints[i]? with
    | none =>
      simp only [runGACLoop, hC] at h
      exact runGACLoop_vmSub csp index fuel rest vm vm' h
    | some C =>
      cases hrev : reviseVars C C.vars vm false with
      | none =>
        simp only [runGACLoop, hC, hrev] at h
        injection h with h
        cases h
      | some res =>
        obtain ⟨changedAny, vm1⟩ := res
        have hsub : vmSub vm1 vm :=
          reviseVars_vmSub C C.vars vm false (changedAny, vm1) hrev
        simp only [runGACLoop, hC, hrev] at h
        cases changedAny with
        | false =>
          rw [if_neg (by simp)] at h
          exact vmSub_trans (runGACLoop_vmSub csp index fuel rest vm1 vm' h) hsub
        | true =>
          rw [if_pos rfl] at h
          exact vmSub_trans (runGACLoop_vmSub csp index fuel _ vm1 vm' h) hsub

theorem runAC3_vmSub {V : Type} (cs : List (BinC V)) (vm vm' : VarMap V)
    (h : runAC3 cs vm = some vm') : vmSub vm' vm := by
  have heq := runAC3_eq cs vm
  rw [h] at heq
  exact runAC3Loop_vmSub cs (ac3Fuel cs vm) cs vm vm' heq

theorem runGAC_vmSub {V : Type} (csp : Problem V) (vm vm' : VarMap V)
    (h : runGAC csp vm = some vm') : vmSub vm' vm := by
  have heq := runGAC_eq csp vm
  rw [h] at heq
  exact runGACLoop_vmSub csp (buildNaryIndex csp.naryConstraints)
    (gacFuel csp vm) (List.range csp.naryConstraints.length) vm vm' heq

/-- Shared helper: one `enforceConsistency` pass only shrinks domains
relative to the merged input mapping. -/
theorem enforceConsistency_vmSub {V : Type} (assigned unassigned : VarMap V)
    (csp : Problem V) (vm' : VarMap V)
    (h : enforceConsistency assigned unassigned csp = some vm') :
    vmSub vm' (mergeAssignment assigned unassigned) := by
  by_cases hb : csp.constraints.length = 0
  · by_cases hn : csp.naryConstraints.length = 0
    · simp [enforceConsistency, hb, hn] at h
      subst h
      exact vmSub_refl _
    · simp [enforceConsistency, hb, hn] at h
      exact runGAC_vmSub csp _ vm' h
  · cases hac : runAC3 csp.constraints (mergeAssignment assigned unassigned) with
    | none =>
      simp [enforceConsistency, hb, hac] at h
    | some vm1 =>
      have h1 : vmSub vm1 (mergeAssignment assigned unassigned) :=
        runAC3_vmSub csp.constraints _ vm1 hac
      by_cases hn : csp.naryConstraints.length = 0
      · simp [enforceConsistency, hb, hac, hn] at h
        subst h
        exact h1
      · simp [enforceConsistency, hb, hac, hn] at h
        exact vmSub_trans (runGAC_vmSub csp vm1 vm' h) h1

/-- C7: after a consistency pass that produces a mapping, every variable
keeps its key (same keys, same order) and its new domain is a
subsequence of its input domain, hence no longer (a failed pass produces
no mapping). -/
theorem enforceConsistency_mono {V : Type} (assigned unassigned : VarMap V)
    (csp : Problem V) (vm' : VarMap V)
    (h : enforceConsistency assigned unassigned csp = some vm') :
    vKeys vm' = vKeys (mergeAssignment assigned unassigned) ∧
    ∀ k d', vLookup vm' k = some d' →
      ∃ d, vLookup (mergeAssignment assigned unassigned) k = some d ∧
        d'.Sublist d ∧ d'.length ≤ d.length := by
  obtain ⟨h1, h2⟩ := enforceConsistency_vmSub assigned unassigned csp vm' h
  refine ⟨h1, fun k d' hk => ?_⟩
  obtain ⟨d, hd, hs⟩ := h2 k d' hk
  exact ⟨d, hd, hs, hs.length_le⟩

theorem enforceConsistency_mono_witness :
    ∃ vm', enforceConsistency ([("x", [1])] : VarMap Nat)
        [("y", [1, 2])]
        { vars := [("x", [1, 2]), ("y", [1, 2])],
          constraints := [⟨"x", "y", fun a b => decide (a < b)⟩],
          naryConstraints := [] } = some vm' ∧
      vKeys vm' = vKeys (mergeAssignment [("x", [1])] [("y", [1, 2])]) ∧
      ∀ k d', vLookup vm' k = some d' →
        ∃ d, vLookup (mergeAssignment [("x", [1])] [("y", [1, 2])]) k =
            some d ∧ d'.Sublist d ∧ d'.length ≤ d.length := by
  have heq : enforceConsistency ([("x", [1])] : VarMap Nat) [("y", [1, 2])]
      { vars := [("x", [1, 2]), ("y", [1, 2])],
        constraints := [⟨"x", "y", fun a b => decide (a < b)⟩],
        naryConstraints := [] } = some [("y", [2]), ("x", [1])] := by decide
  exact ⟨[("y", [2]), ("x", [1])], heq,
    enforceConsistency_mono [("x", [1])] [("y", [1, 2])] _ _ heq⟩

/-- C6: when processing an arc removes tail values, (a) a wiped-out tail
domain fails the whole pass at once — the failure result is returned no
matter what arcs remain queued, and `enforceConsistency` maps it to
`FAILURE` — and (b) a non-empty pruned tail re-enqueues exactly the
constraints whose head is that tail. -/
theorem runAC3_empty_domain_behavior {V : Type} :
    (∀ (cs : List (BinC V)) (fuel : Nat) (c : BinC V) (rest : List (BinC V))
      (vm : VarMap V) (hv tv valid : Dom V),
      vLookup vm c.head = some hv → vLookup vm c.tail = some tv →
      valid = tv.filter (fun t => hv.any (fun h => c.pred h t)) →
      valid.length ≠ tv.length →
      ((valid = [] →
        runAC3Loop cs (fuel + 1) (c :: rest) vm = some none) ∧
      (valid ≠ [] →
        runAC3Loop cs (fuel + 1) (c :: rest) vm =
          runAC3Loop cs fuel (rest ++ incomingConstraints cs c.tail)
            (vSet vm c.tail valid)))) ∧
    (∀ (assigned unassigned : VarMap V) (csp : Problem V),
      csp.constraints.length ≠ 0 →
      runAC3 csp.constraints (mergeAssignment assigned unassigned) = none →
      enforceConsistency assigned unassigned csp = none) := by
  constructor
  · intro cs fuel c rest vm hv tv valid hh ht hvalid hne
    subst hvalid
    constructor
    · intro hnil
      simp only [runAC3Loop, hh, ht]
      rw [if_neg hne, if_pos (by rw [hnil]; rfl)]
    · intro hnil
      simp only [runAC3Loop, hh, ht]
      rw [if_neg hne, if_neg (fun h0 => hnil (List.length_eq_zero.mp h0))]
  · intro assigned unassigned csp hb hnone
    simp [enforceConsistency, hb, hnone]

theorem runAC3_empty_domain_behavior_witness :
    runAC3Loop ([] : List (BinC Nat)) 1
      [⟨"x", "y", fun a b => decide (a < b)⟩]
      [("x", [1]), ("y", [1])] = some none :=
  ((runAC3_empty_domain_behavior.1 [] 0 ⟨"x", "y", fun a b => decide (a < b)⟩
    [] [("x", [1]), ("y", [1])] [1] [1]
    (List.filter (fun t => List.any [1] fun h => decide (h < t)) [1])
    (by decide) (by decide) rfl (by decide)).1) (by decide)

/-! ## Non-array domains: normalization substitutes, validation cannot fire -/

theorem vLookup_map_getD {V : Type} :
    ∀ (l : List (String × Option (Dom V))) (k : String),
    vLookup (l.map (fun kv => (kv.1, kv.2.getD []))) k =
      (vLookup l k).map (fun o => o.getD [])
  | [], k => rfl
  | (k0, d0) :: rest, k => by
    by_cases h0 : k0 = k <;>
      simp [vLookup, h0, vLookup_map_getD rest k]

theorem validateVars_ok {V : Type} :
    ∀ l : List (String × Dom V), validateVars l = Except.ok ()
  | [] => rfl
  | (k, d) :: rest => by
    simp only [validateVars, js_isArray]
    exact validateVars_ok rest

theorem validateBinary_error_shape {V : Type} (varsSet : List String) :
    ∀ (l : List (BinC V)) (e : VErr), validateBinary varsSet l = .error e →
      ∃ v, e = .unknownVarBinary v
  | [], e => by intro h; cases h
  | c :: rest, e => by
    intro h
    simp only [validateBinary] at h
    by_cases h1 : c.head ∈ varsSet
    · rw [if_neg (by simpa using h1)] at h
      by_cases h2 : c.tail ∈ varsSet
      · rw [if_neg (by simpa using h2)] at h
        exact validateBinary_error_shape varsSet rest e h
      · rw [if_pos (by simpa using h2)] at h
        injection h with h
        exact ⟨c.tail, h.symm⟩
    · rw [if_pos (by simpa using h1)] at h
      injection h with h
      exact ⟨c.head, h.symm⟩

theorem validateNary_error_shape {V : Type} (varsSet : List String) :
    ∀ (l : List (NaryC V)) (e : VErr), validateNary varsSet l = .error e →
      e = .naryMissingVars ∨ ∃ v, e = .unknownVarNary v
  | [], e => by intro h; cases h
  | C :: rest, e => by
    intro h
    simp only [validateNary] at h
    by_cases h1 : C.vars.length = 0
    · rw [if_pos h1] at h
      injection h with h
      exact Or.inl h.symm
    · rw [if_neg h1] at h
      cases hf : firstUnknown varsSet C.vars with
      | some v =>
        rw [hf] at h
        injection h with h
        exact Or.inr ⟨v, h.symm⟩
      | none =>
        rw [hf] at h
        exact validateNary_error_shape varsSet rest e h

/-- C2 (amended): a raw domain that is not an array is replaced by the
empty domain during normalization, and the domain check of
`validateProblem` can never raise the `InvalidDomain` error (after
normalization every domain is an array), so `solve` proceeds into search
instead of aborting. -/
theorem nonArrayDomain_normalized {V : Type} :
    (∀ (raw : RawProblem V) (k : String),
      vLookup raw.vars k = some none →
        vLookup (normalizeProblem raw).vars k = some []) ∧
    (∀ (csp : Problem V) (v : String),
      validateProblem csp ≠ Except.error (VErr.invalidDomain v)) := by
  constructor
  · intro raw k h
    show vLookup (raw.vars.map (fun kv => (kv.1, kv.2.getD []))) k = some []
    rw [vLookup_map_getD raw.vars k, h]
    rfl
  · intro csp v h
    unfold validateProblem at h
    rw [validateVars_ok csp.vars] at h
    cases hb : validateBinary (varsSetOf csp) csp.constraints with
    | error e =>
      rw [hb] at h
      injection h with h
      obtain ⟨w, hw⟩ := validateBinary_error_shape (varsSetOf csp)
        csp.constraints e hb
      rw [hw] at h
      cases h
    | ok u =>
      cases u
      rw [hb] at h
      rcases validateNary_error_shape (varsSetOf csp) csp.naryConstraints
        (VErr.invalidDomain v) h with h2 | ⟨w, h2⟩ <;> cases h2

theorem nonArrayDomain_normalized_witness :
    vLookup (normalizeProblem ({ vars := [("x", none)],
                                 constraints := none,
                                 naryConstraints := none } :
      RawProblem Nat)).vars "x" = some [] :=
  nonArrayDomain_normalized.1
    ({ vars := [("x", none)],
       constraints := none,
       naryConstraints := none } : RawProblem Nat)
    "x" rfl

/-- C2 counterexample: on a raw problem whose only variable has a
non-array domain, `CSP.solve` does not throw any error — in particular
no `InvalidDomain` error — but runs the search on the substituted empty
domain and returns the `FAILURE` sentinel (`Except.ok none`). -/
theorem solve_nonArrayDomain_not_error :
    CSP.solve ({ vars := [("x", none)],
                 constraints := none,
                 naryConstraints := none } : RawProblem Nat) =
      Except.ok none := rfl

/-! ## Arc-consistency fixpoints (AC-3) -/

/-- An arc is consistent when every tail value has a supporting head
value in the current domains. -/
def arcConsistent {V : Type} (vm : VarMap V) (c : BinC V) : Prop :=
  ∀ hv tv, vLookup vm c.head = some hv → vLookup vm c.tail = some tv →
    ∀ t ∈ tv, hv.any (fun h => c.pred h t) = true

theorem runAC3Loop_consistent {V : Type} (cs : List (BinC V)) :
    ∀ (fuel : Nat) (queue : List (BinC V)) (vm vm' : VarMap V),
    runAC3Loop cs fuel queue vm = some (some vm') →
    (∀ c, c ∈ cs → (arcConsistent vm c ∨ c ∈ queue)) →
    ∀ c, c ∈ cs → arcConsistent vm' c
  | 0, queue, vm, vm' => by
    intro h
    cases h
  | fuel + 1, [], vm, vm' => by
    intro h hinv
    simp only [runAC3Loop] at h
    injection h with h
    injection h with h
    subst h
    intro c hc
    rcases hinv c hc with h1 | h1
    · exact h1
    · cases h1
  | fuel + 1, c :: rest, vm, vm' => by
    intro h hinv
    cases hh : vLookup vm c.head with
    | none =>
      simp only [runAC3Loop, hh] at h
      refine runAC3Loop_consistent cs fuel rest vm vm' h ?_
      intro c' hc'
      rcases hinv c' hc' with h1 | h1
      · exact Or.inl h1
      · rcases List.mem_cons.mp h1 with rfl | h2
        · left
          intro hv' tv' hh' ht' t htm
          rw [hh] at hh'
          cases hh'
        · exact Or.inr h2
    | some hv =>
      cases ht : vLookup vm c.tail with
      | none =>
        simp only [runAC3Loop, hh, ht] at h
        refine runAC3Loop_consistent cs fuel rest vm vm' h ?_
        intro c' hc'
        rcases hinv c' hc' with h1 | h1
        · exact Or.inl h1
        · rcases List.mem_cons.mp h1 with rfl | h2
          · left
            intro hv' tv' hh' ht' t htm
            rw [ht] at ht'
            cases ht'
          · exact Or.inr h2
      | some tv =>
        simp only [runAC3Loop, hh, ht] at h
        by_cases hlen : (tv.filter (fun t => hv.any (fun h => c.pred h t))).length
            = tv.length
        · rw [if_pos hlen] at h
          have hvalid_eq : tv.filter (fun t => hv.any (fun h => c.pred h t)) =
              tv :=
            List.Sublist.eq_of_length (List.filter_sublist tv) hlen
          have hfix : vSet vm c.tail
              (tv.filter (fun t => hv.any (fun h => c.pred h t))) = vm := by
            rw [hvalid_eq]
            exact vSet_eq_self vm c.tail tv ht
          rw [hfix] at h
          refine runAC3Loop_consistent cs fuel rest vm vm' h ?_
          intro c' hc'
          rcases hinv c' hc' with h1 | h1
          · exact Or.inl h1
          · rcases List.mem_cons.mp h1 with rfl | h2
            · left
              intro hv' tv' hh' ht' t htm
              rw [hh] at hh'
              injection hh' with hh'
              subst hh'
              rw [ht] at ht'
              injection ht' with ht'
              subst ht'
              have htf : t ∈ List.filter
                  (fun t => List.any hv (fun h => c'.pred h t)) tv := by
                rw [hvalid_eq]
                exact htm
              exact (List.mem_filter.mp htf).2
            · exact Or.inr h2
        · rw [if_neg hlen] at h
          by_cases hnil : (tv.filter
              (fun t => hv.any (fun h => c.pred h t))).length = 0
          · rw [if_pos hnil] at h
            injection h with h
            cases h
          · rw [if_neg hnil] at h
            refine runAC3Loop_consistent cs fuel
              (rest ++ incomingConstraints cs c.tail)
              (vSet vm c.tail (tv.filter (fun t => hv.any (fun h => c.pred h t))))
              vm' h ?_
            intro c' hc'
            by_cases hhead : c'.head = c.tail
            · right
              rw [List.mem_append]
              right
              simp only [incomingConstraints, List.mem_filter]
              exact ⟨hc', by simp [hhead]⟩
            · rcases hinv c' hc' with hcon | hq
              · left
                intro hv' tv' hh2 ht2 t ht3
                rw [vLookup_set_ne vm c.tail c'.head _ hhead] at hh2
                by_cases htail : c'.tail = c.tail
                · rw [htail, vLookup_set_self] at ht2
                  injection ht2 with ht2
                  subst ht2
                  have htv : t ∈ tv := (List.mem_filter.mp ht3).1
                  exact hcon hv' tv hh2 (by rw [htail]; exact ht) t htv
                · rw [vLookup_set_ne vm c.tail c'.tail _ htail] at ht2
                  exact hcon hv' tv' hh2 ht2 t ht3
              · rcases List.mem_cons.mp hq with rfl | h2
                · left
                  intro hv' tv' hh2 ht2 t ht3
                  rw [vLookup_set_ne vm c'.tail c'.head _ hhead] at hh2
                  rw [vLookup_set_self] at ht2
                  rw [hh] at hh2
                  injection hh2 with hh2
                  subst hh2
                  injection ht2 with ht2
                  subst ht2
                  exact (List.mem_filter.mp ht3).2
                · right
                  rw [List.mem_append]
                  exact Or.inl h2

theorem runAC3Loop_fix {V : Type} (cs : List (BinC V)) :
    ∀ (fuel : Nat) (queue : List (BinC V)) (vm : VarMap V),
    (∀ c, c ∈ queue → arcConsistent vm c) → queue.length < fuel →
    runAC3Loop cs fuel queue vm = some (some vm)
  | 0, queue, vm => by
    intro _ h
    exact absurd h (Nat.not_lt_zero _)
  | fuel + 1, [], vm => by
    intro _ _
    simp [runAC3Loop]
  | fuel + 1, c :: rest, vm => by
    intro hq hfuel
    cases hh : vLookup vm c.head with
    | none =>
      simp only [runAC3Loop, hh]
      exact runAC3Loop_fix cs fuel rest vm
        (fun c' hc' => hq c' (List.mem_cons_of_mem _ hc'))
        (by simp at hfuel; omega)
    | some hv =>
      cases ht : vLookup vm c.tail with
      | none =>
        simp only [runAC3Loop, hh, ht]
        exact runAC3Loop_fix cs fuel rest vm
          (fun c' hc' => hq c' (List.mem_cons_of_mem _ hc'))
          (by simp at hfuel; omega)
      | some tv =>
        have hcon := hq c (List.mem_cons_self _ _)
        have hvalid_eq : tv.filter (fun t => hv.any (fun h => c.pred h t)) =
            tv :=
          List.filter_eq_self.mpr (fun t htm => hcon hv tv hh ht t htm)
        simp only [runAC3Loop, hh, ht]
        rw [if_pos (by rw [hvalid_eq])]
        rw [show vSet vm c.tail
            (tv.filter (fun t => hv.any (fun h => c.pred h t))) = vm from by
          rw [hvalid_eq]; exact vSet_eq_self vm c.tail tv ht]
        exact runAC3Loop_fix cs fuel rest vm
          (fun c' hc' => hq c' (List.mem_cons_of_mem _ hc'))
          (by simp at hfuel; omega)

/-- After a successful `runAC3`, every constraint is arc-consistent on
the pruned domains, and re-running `runAC3` on them changes nothing. -/
theorem runAC3_fixpoint {V : Type} (cs : List (BinC V)) (vm vm' : VarMap V)
    (h : runAC3 cs vm = some vm') :
    (∀ c, c ∈ cs → arcConsistent vm' c) ∧ runAC3 cs vm' = some vm' := by
  have heq := runAC3_eq cs vm
  rw [h] at heq
  have hcons : ∀ c, c ∈ cs → arcConsistent vm' c :=
    runAC3Loop_consistent cs (ac3Fuel cs vm) cs vm vm' heq
      (fun c hc => Or.inr hc)
  refine ⟨hcons, ?_⟩
  have hfix := runAC3Loop_fix cs (ac3Fuel cs vm') cs vm' hcons
    (by unfold ac3Fuel; omega)
  unfold runAC3
  rw [hfix]
  rfl

/-! ## Generalized arc-consistency fixpoints (GAC) -/

theorem collectOthers_congr {V : Type} (f : String) (vm1 vm2 : VarMap V) :
    ∀ l : List String, (∀ w ∈ l, vLookup vm1 w = vLookup vm2 w) →
    collectOthers f vm1 l = collectOthers f vm2 l
  | [] => by intro _; rfl
  | v :: rest => by
    intro hcong
    have hrec := collectOthers_congr f vm1 vm2 rest
      (fun w hw => hcong w (List.mem_cons_of_mem _ hw))
    by_cases hv : v = f
    · subst hv
      rw [collectOthers_cons_focus, collectOthers_cons_focus, hrec]
    · have hl := hcong v (List.mem_cons_self _ _)
      cases h2 : vLookup vm2 v with
      | none =>
        rw [collectOthers_cons_missing f v vm1 rest hv (by rw [hl, h2]),
          collectOthers_cons_missing f v vm2 rest hv h2]
      | some dom =>
        by_cases hd : dom = []
        · subst hd
          rw [collectOthers_cons_nil f v vm1 rest hv (by rw [hl, h2]),
            collectOthers_cons_nil f v vm2 rest hv h2]
        · rw [collectOthers_cons_dom f v vm1 rest dom hv (by rw [hl, h2]) hd,
            collectOthers_cons_dom f v vm2 rest dom hv h2 hd, hrec]

theorem insertLe_congr {α : Type} (le1 le2 : α → α → Bool) (x : α) :
    ∀ l : List α, (∀ y ∈ l, le1 y x = le2 y x) →
    insertLe le1 x l = insertLe le2 x l
  | [] => by intro _; rfl
  | y :: ys => by
    intro hcong
    have h0 := hcong y (List.mem_cons_self _ _)
    have hrec := insertLe_congr le1 le2 x ys
      (fun z hz => hcong z (List.mem_cons_of_mem _ hz))
    simp only [insertLe, h0, hrec]

theorem sortLe_congr {α : Type} (le1 le2 : α → α → Bool) :
    ∀ l : List α, (∀ a b, a ∈ l → b ∈ l → le1 a b = le2 a b) →
    sortLe le1 l = sortLe le2 l
  | [] => by intro _; rfl
  | x :: xs => by
    intro hcong
    have hrec := sortLe_congr le1 le2 xs
      (fun a b ha hb => hcong a b (List.mem_cons_of_mem _ ha)
        (List.mem_cons_of_mem _ hb))
    simp only [sortLe, hrec]
    apply insertLe_congr
    intro y hy
    exact hcong y x (List.mem_cons_of_mem _ ((mem_sortLe le2 xs y).mp hy))
      (List.mem_cons_self _ _)

theorem hasSupport_congr {V : Type} (focusVar : String) (focusVal : V)
    (C : NaryC V) (vm1 vm2 : VarMap V)
    (hcong : ∀ w ∈ C.vars, vLookup vm1 w = vLookup vm2 w) :
    hasSupport focusVar focusVal C vm1 = hasSupport focusVar focusVal C vm2 := by
  unfold hasSupport
  rw [collectOthers_congr focusVar vm1 vm2 C.vars hcong]
  cases hco : collectOthers focusVar vm2 C.vars with
  | none => rfl
  | some others =>
    obtain ⟨hmem, _⟩ := collectOthers_eq_some focusVar vm2 C.vars others hco
    have hsubv : ∀ v ∈ others, v ∈ C.vars := fun v hv => ((hmem v).mp hv).1
    have hsort : sortLe (fun a b => leInf (lenInf vm1 a) (lenInf vm1 b)) others =
        sortLe (fun a b => leInf (lenInf vm2 a) (lenInf vm2 b)) others := by
      apply sortLe_congr
      intro a b ha hb
      unfold lenInf
      rw [hcong a (hsubv a ha), hcong b (hsubv b hb)]
    have hpairs : (sortLe (fun a b => leInf (lenInf vm2 a) (lenInf vm2 b))
          others).map (fun v => (v, (vLookup vm1 v).getD [])) =
        (sortLe (fun a b => leInf (lenInf vm2 a) (lenInf vm2 b))
          others).map (fun v => (v, (vLookup vm2 v).getD [])) := by
      apply List.map_congr_left
      intro v hv
      rw [hcong v (hsubv v ((mem_sortLe _ _ v).mp hv))]
    show dfsSupport C.predicate ((focusVar, [focusVal]) ::
        (sortLe (fun a b => leInf (lenInf vm1 a) (lenInf vm1 b)) others).map
          (fun v => (v, (vLookup vm1 v).getD []))) (fun _ => none) =
      dfsSupport C.predicate ((focusVar, [focusVal]) ::
        (sortLe (fun a b => leInf (lenInf vm2 a) (lenInf vm2 b)) others).map
          (fun v => (v, (vLookup vm2 v).getD []))) (fun _ => none)
    rw [hsort, hpairs]

/-- An n-ary constraint is (generalized-arc-)consistent when every value
of every present participant's domain has support. -/
def gacConsistent {V : Type} (vm : VarMap V) (C : NaryC V) : Prop :=
  ∀ v ∈ C.vars, ∀ dom, vLookup vm v = some dom →
    ∀ x ∈ dom, hasSupport v x C vm = true

theorem reviseVars_lookup_outside {V : Type} (C : NaryC V) :
    ∀ (vs : List String) (vm : VarMap V) (changed : Bool)
      (res : Bool × VarMap V),
    reviseVars C vs vm changed = some res →
    ∀ w, w ∉ vs → vLookup res.2 w = vLookup vm w
  | [], vm, changed, res => by
    intro h w _
    simp only [reviseVars] at h
    injection h with h
    subst h
    rfl
  | v :: rest, vm, changed, res => by
    intro h w hw
    have hwv : w ≠ v := fun h2 => hw (h2 ▸ List.mem_cons_self v rest)
    have hwrest : w ∉ rest := fun h2 => hw (List.mem_cons_of_mem _ h2)
    cases hl : vLookup vm v with
    | none =>
      simp only [reviseVars, hl] at h
      exact reviseVars_lookup_outside C rest vm changed res h w hwrest
    | some dom =>
      simp only [reviseVars, hl] at h
      by_cases hlen : (dom.filter (fun val => hasSupport v val C vm)).length =
          dom.length
      · rw [if_pos hlen] at h
        exact reviseVars_lookup_outside C rest vm changed res h w hwrest
      · rw [if_neg hlen] at h
        by_cases hnil : (dom.filter (fun val => hasSupport v val C vm)).length = 0
        · rw [if_pos hnil] at h
          cases h
        · rw [if_neg hnil] at h
          rw [reviseVars_lookup_outside C rest _ true res h w hwrest]
          exact vLookup_set_ne vm v w _ hwv

theorem reviseVars_unchanged_consistent {V : Type} (C : NaryC V) :
    ∀ (vs : List String) (vm : VarMap V) (res : Bool × VarMap V),
    reviseVars C vs vm false = some res → res.1 = false →
    ∀ v ∈ vs, ∀ dom, vLookup vm v = some dom →
      ∀ x ∈ dom, hasSupport v x C vm = true
  | [], vm, res => by
    intro _ _ v hv
    cases hv
  | v :: rest, vm, res => by
    intro h hres w hw dom hdom x hx
    cases hl : vLookup vm v with
    | none =>
      simp only [reviseVars, hl] at h
      rcases List.mem_cons.mp hw with rfl | h2
      · rw [hl] at hdom
        cases hdom
      · exact reviseVars_unchanged_consistent C rest vm res h hres w h2 dom
          hdom x hx
    | some dom0 =>
      simp only [reviseVars, hl] at h
      by_cases hlen : (dom0.filter (fun val => hasSupport v val C vm)).length =
          dom0.length
      · rw [if_pos hlen] at h
        rcases List.mem_cons.mp hw with rfl | h2
        · rw [hl] at hdom
          injection hdom with hdom
          subst hdom
          have hx2 : x ∈ dom0.filter (fun val => hasSupport w val C vm) := by
            rw [List.Sublist.eq_of_length (List.filter_sublist dom0) hlen]
            exact hx
          exact (List.mem_filter.mp hx2).2
        · exact reviseVars_unchanged_consistent C rest vm res h hres w h2 dom
            hdom x hx
      · rw [if_neg hlen] at h
        by_cases hnil : (dom0.filter (fun val => hasSupport v val C vm)).length = 0
        · rw [if_pos hnil] at h
          cases h
        · rw [if_neg hnil] at h
          have := (reviseVars_step C rest _ true res h).2.2.1 rfl
          rw [hres] at this
          cases this

theorem reviseVars_consistent_fix {V : Type} (C : NaryC V) :
    ∀ (vs : List String) (vm : VarMap V) (changed : Bool),
    (∀ v ∈ vs, ∀ dom, vLookup vm v = some dom →
      ∀ x ∈ dom, hasSupport v x C vm = true) →
    reviseVars C vs vm changed = some (changed, vm)
  | [], vm, changed => by
    intro _
    rfl
  | v :: rest, vm, changed => by
    intro hcons
    cases hl : vLookup vm v with
    | none =>
      simp only [reviseVars, hl]
      exact reviseVars_consistent_fix C rest vm changed
        (fun w hw => hcons w (List.mem_cons_of_mem _ hw))
    | some dom =>
      simp only [reviseVars, hl]
      have hfe : dom.filter (fun val => hasSupport v val C vm) = dom :=
        List.filter_eq_self.mpr
          (fun x hx => hcons v (List.mem_cons_self _ _) dom hl x hx)
      rw [if_pos (by rw [hfe])]
      exact reviseVars_consistent_fix C rest vm changed
        (fun w hw => hcons w (List.mem_cons_of_mem _ hw))

theorem runGACLoop_consistent {V : Type} (csp : Problem V)
    (index : VMap (List Nat))
    (hidxc : ∀ (j : Nat) (C : NaryC V) (v : String), csp.naryConstraints[j]? = some C → v ∈ C.vars →
      j ∈ (vLookup index v).getD []) :
    ∀ (fuel : Nat) (queue : List Nat) (vm vm' : VarMap V),
    runGACLoop csp index fuel queue vm = some (some vm') →
    (∀ (j : Nat) (C : NaryC V), csp.naryConstraints[j]? = some C →
      (gacConsistent vm C ∨ j ∈ queue)) →
    ∀ (j : Nat) (C : NaryC V), csp.naryConstraints[j]? = some C → gacConsistent vm' C
  | 0, queue, vm, vm' => by
    intro h
    cases h
  | fuel + 1, [], vm, vm' => by
    intro h hinv
    simp only [runGACLoop] at h
    injection h with h
    injection h with h
    subst h
    intro j C hj
    rcases hinv j C hj with h1 | h1
    · exact h1
    · cases h1
  | fuel + 1, i :: rest, vm, vm' => by
    intro h hinv
    cases hC : csp.naryConstraints[i]? with
    | none =>
      simp only [runGACLoop, hC] at h
      refine runGACLoop_consistent csp index hidxc fuel rest vm vm' h ?_
      intro j Cj hj
      rcases hinv j Cj hj with h1 | h1
      · exact Or.inl h1
      · rcases List.mem_cons.mp h1 with rfl | h2
        · rw [hC] at hj
          cases hj
        · exact Or.inr h2
    | some C =>
      cases hrev : reviseVars C C.vars vm false with
      | none =>
        simp only [runGACLoop, hC, hrev] at h
        injection h with h
        cases h
      | some res =>
        obtain ⟨changedAny, vm1⟩ := res
        simp only [runGACLoop, hC, hrev] at h
        cases changedAny with
        | false =>
          rw [if_neg (by simp)] at h
          have hvm : vm1 = vm :=
            (reviseVars_step C C.vars vm false (false, vm1) hrev).2.1 rfl
          subst hvm
          refine runGACLoop_consistent csp index hidxc fuel rest vm1 vm' h ?_
          intro j Cj hj
          rcases hinv j Cj hj with h1 | h1
          · exact Or.inl h1
          · rcases List.mem_cons.mp h1 with rfl | h2
            · rw [hC] at hj
              injection hj with hj
              subst hj
              left
              intro v hv dom hdom x hx
              exact reviseVars_unchanged_consistent C C.vars vm1 (false, vm1)
                hrev rfl v hv dom hdom x hx
            · exact Or.inr h2
        | true =>
          rw [if_pos rfl] at h
          have hCne : C.vars ≠ [] := by
            intro hnil
            rw [hnil] at hrev
            simp only [reviseVars] at hrev
            injection hrev with hrev
            have h2 : false = true := congrArg Prod.fst hrev
            exact Bool.noConfusion h2
          refine runGACLoop_consistent csp index hidxc fuel
            (enqueueRelated index C.vars rest) vm1 vm' h ?_
          intro j Cj hj
          by_cases hshare : ∃ v, v ∈ C.vars ∧ v ∈ Cj.vars
          · obtain ⟨v, hv1, hv2⟩ := hshare
            right
            obtain ⟨_, _, _, _, hall⟩ := enqueueRelated_spec index C.vars rest
            exact hall v hv1 j (hidxc j Cj v hj hv2)
          · have hout : ∀ w ∈ Cj.vars, vLookup vm1 w = vLookup vm w := by
              intro w hw
              exact reviseVars_lookup_outside C C.vars vm false (true, vm1) hrev
                w (fun hwC => hshare ⟨w, hwC, hw⟩)
            rcases hinv j Cj hj with hcon | hq
            · left
              intro v hv dom hdom x hx
              rw [hout v hv] at hdom
              rw [hasSupport_congr v x Cj vm1 vm hout]
              exact hcon v hv dom hdom x hx
            · rcases List.mem_cons.mp hq with rfl | h2
              · rw [hC] at hj
                injection hj with hj
                subst hj
                obtain ⟨v, hv⟩ := List.exists_mem_of_ne_nil C.vars hCne
                exact absurd ⟨v, hv, hv⟩ hshare
              · right
                obtain ⟨extra, he, _, _, _⟩ := enqueueRelated_spec index C.vars rest
                rw [he]
                exact List.mem_append.mpr (Or.inl h2)

theorem runGACLoop_fix {V : Type} (csp : Problem V) (index : VMap (List Nat)) :
    ∀ (fuel : Nat) (queue : List Nat) (vm : VarMap V),
    (∀ (j : Nat) (C : NaryC V), csp.naryConstraints[j]? = some C → j ∈ queue →
      gacConsistent vm C) →
    queue.length < fuel →
    runGACLoop csp index fuel queue vm = some (some vm)
  | 0, queue, vm => by
    intro _ h
    exact absurd h (Nat.not_lt_zero _)
  | fuel + 1, [], vm => by
    intro _ _
    simp [runGACLoop]
  | fuel + 1, i :: rest, vm => by
    intro hq hfuel
    cases hC : csp.naryConstraints[i]? with
    | none =>
      simp only [runGACLoop, hC]
      exact runGACLoop_fix csp index fuel rest vm
        (fun j C hj h2 => hq j C hj (List.mem_cons_of_mem _ h2))
        (by simp at hfuel; omega)
    | some C =>
      have hcons := hq i C hC (List.mem_cons_self _ _)
      have hfix : reviseVars C C.vars vm false = some (false, vm) :=
        reviseVars_consistent_fix C C.vars vm false
          (fun v hv dom hdom x hx => hcons v hv dom hdom x hx)
      simp only [runGACLoop, hC, hfix]
      rw [if_neg (by simp)]
      exact runGACLoop_fix csp index fuel rest vm
        (fun j Cj hj h2 => hq j Cj hj (List.mem_cons_of_mem _ h2))
        (by simp at hfuel; omega)

/-- After a successful `runGAC`, every n-ary constraint is generalized
arc-consistent on the pruned domains, and re-running `runGAC` changes
nothing. -/
theorem runGAC_fixpoint {V : Type} (csp : Problem V) (vm vm' : VarMap V)
    (h : runGAC csp vm = some vm') :
    (∀ (j : Nat) (C : NaryC V), csp.naryConstraints[j]? = some C → gacConsistent vm' C) ∧
    runGAC csp vm' = some vm' := by
  have heq := runGAC_eq csp vm
  rw [h] at heq
  have hidxc : ∀ (j : Nat) (C : NaryC V) (v : String), csp.naryConstraints[j]? = some C → v ∈ C.vars →
      j ∈ (vLookup (buildNaryIndex csp.naryConstraints) v).getD [] := by
    intro j C v hj hv
    exact (mem_buildNaryIndex csp.naryConstraints v j).mpr ⟨C, hj, hv⟩
  have hcons : ∀ (j : Nat) (C : NaryC V), csp.naryConstraints[j]? = some C → gacConsistent vm' C := by
    refine runGACLoop_consistent csp (buildNaryIndex csp.naryConstraints) hidxc
      (gacFuel csp vm) (List.range csp.naryConstraints.length) vm vm' heq ?_
    intro j C hj
    right
    rw [List.mem_range]
    exact (List.getElem?_eq_some.mp hj).1
  refine ⟨hcons, ?_⟩
  have hfix := runGACLoop_fix csp (buildNaryIndex csp.naryConstraints)
    (gacFuel csp vm') (List.range csp.naryConstraints.length) vm'
    (fun j C hj _ => hcons j C hj)
    (by unfold gacFuel; simp only [List.length_range]; omega)
  unfold runGAC
  rw [hfix]
  rfl

/-! ## Idempotence: counterexample and the single-kind case -/

theorem mem_vKeys_vSet {α : Type} (m : VMap α) (k w : String) (v : α) :
    w ∈ vKeys (vSet m k v) ↔ (w ∈ vKeys m ∨ w = k) := by
  induction m with
  | nil => simp [vSet, vKeys, eq_comm]
  | cons kv rest ih =>
    obtain ⟨k0, v0⟩ := kv
    by_cases h0 : k0 = k
    · subst h0
      simp only [vSet, eq_self_iff_true, if_true, vKeys, List.map_cons,
        List.mem_cons]
      constructor
      · rintro (rfl | h1)
        · exact Or.inl (Or.inl rfl)
        · exact Or.inl (Or.inr h1)
      · rintro ((rfl | h1) | rfl)
        · exact Or.inl rfl
        · exact Or.inr h1
        · exact Or.inl rfl
    · simp only [vSet, if_neg h0, vKeys, List.map_cons, List.mem_cons]
      rw [show (vSet rest k v).map Prod.fst = vKeys (vSet rest k v) from rfl, ih]
      show w = k0 ∨ w ∈ vKeys rest ∨ w = k ↔ (w = k0 ∨ w ∈ vKeys rest) ∨ w = k
      tauto

theorem vKeys_vSet_nodup {α : Type} (m : VMap α) (k : String) (v : α)
    (h : (vKeys m).Nodup) : (vKeys (vSet m k v)).Nodup := by
  induction m with
  | nil => simp [vSet, vKeys]
  | cons kv rest ih =>
    obtain ⟨k0, v0⟩ := kv
    simp only [vKeys, List.map_cons, List.nodup_cons] at h
    obtain ⟨h1, h2⟩ := h
    by_cases h0 : k0 = k
    · subst h0
      simp only [vSet, eq_self_iff_true, if_true, vKeys, List.map_cons,
        List.nodup_cons]
      exact ⟨h1, h2⟩
    · simp only [vSet, if_neg h0, vKeys, List.map_cons, List.nodup_cons]
      refine ⟨?_, ih h2⟩
      intro hmem
      rcases (mem_vKeys_vSet rest k k0 v).mp hmem with h3 | h3
      · exact h1 h3
      · exact h0 h3

theorem foldl_vSet_nodup {α : Type} :
    ∀ (l : List (String × α)) (acc : VMap α), (vKeys acc).Nodup →
    (vKeys (l.foldl (fun a kv => vSet a kv.1 kv.2) acc)).Nodup
  | [], acc => fun h => h
  | kv :: rest, acc => by
    intro h
    exact foldl_vSet_nodup rest (vSet acc kv.1 kv.2) (vKeys_vSet_nodup acc _ _ h)

theorem mergeAssignment_nodup {V : Type} (assigned unassigned : VarMap V) :
    (vKeys (mergeAssignment assigned unassigned)).Nodup :=
  foldl_vSet_nodup assigned _ (foldl_vSet_nodup unassigned [] (by simp [vKeys]))

theorem vSet_append_of_none {α : Type} (m : VMap α) (k : String) (v : α)
    (h : vLookup m k = none) : vSet m k v = m ++ [(k, v)] := by
  induction m with
  | nil => rfl
  | cons kv rest ih =>
    obtain ⟨k0, v0⟩ := kv
    by_cases h0 : k0 = k
    · simp [vLookup, h0] at h
    · simp only [vLookup, if_neg h0] at h
      simp [vSet, h0, ih h]

theorem foldl_vSet_fresh {V : Type} :
    ∀ (l : List (String × Dom V)) (acc : VarMap V),
    (∀ k, k ∈ vKeys l → vLookup acc k = none) → (vKeys l).Nodup →
    l.foldl (fun a kv => vSet a kv.1 kv.2) acc = acc ++ l
  | [], acc => by
    intro _ _
    simp
  | (k, v) :: rest, acc => by
    intro hfresh hnd
    simp only [vKeys, List.map_cons, List.nodup_cons] at hnd
    obtain ⟨hk, hnd2⟩ := hnd
    have h0 : vLookup acc k = none :=
      hfresh k (by simp [vKeys])
    simp only [List.foldl_cons]
    rw [vSet_append_of_none acc k v h0]
    rw [foldl_vSet_fresh rest (acc ++ [(k, v)]) ?_ hnd2]
    · simp
    · intro k' hk'
      rw [vLookup_append]
      rw [hfresh k' (by simp [vKeys]; exact Or.inr (by simpa [vKeys] using hk'))]
      have hne : ¬ (k = k') := by
        intro h2
        subst h2
        exact hk (by simpa [vKeys] using hk')
      simp [vLookup, hne]

theorem mergeAssignment_nil_left {V : Type} (m : VarMap V)
    (h : (vKeys m).Nodup) : mergeAssignment [] m = m := by
  unfold mergeAssignment
  simp only [List.foldl_nil]
  rw [foldl_vSet_fresh m [] (fun k _ => rfl) h]
  rfl

/-- C5 counterexample: with one binary constraint (head `y`, tail `x`,
`t < h`) and one unary n-ary constraint (`y = 2`), a successful
`enforceConsistency` pass prunes to `x ∈ {1,2}, y ∈ {2}`, but applying
`enforceConsistency` to that pruned mapping prunes further to
`x ∈ {1}, y ∈ {2}`: the GAC phase invalidated the binary fixpoint, so
the combined pass is not idempotent. -/
theorem enforceConsistency_not_idempotent :
    enforceConsistency ([] : VarMap Nat)
        [("x", [1, 2, 3]), ("y", [1, 2, 3])]
        { vars := [("x", [1, 2, 3]), ("y", [1, 2, 3])],
          constraints := [⟨"y", "x", fun h t => decide (t < h)⟩],
          naryConstraints := [⟨["y"], fun a => some (decide (a "y" = some 2))⟩] }
      = some [("x", [1, 2]), ("y", [2])] ∧
    enforceConsistency ([] : VarMap Nat) [("x", [1, 2]), ("y", [2])]
        { vars := [("x", [1, 2, 3]), ("y", [1, 2, 3])],
          constraints := [⟨"y", "x", fun h t => decide (t < h)⟩],
          naryConstraints := [⟨["y"], fun a => some (decide (a "y" = some 2))⟩] }
      = some [("x", [1]), ("y", [2])] ∧
    ([("x", [1]), ("y", [2])] : VarMap Nat) ≠ [("x", [1, 2]), ("y", [2])] :=
  ⟨rfl, rfl, by decide⟩

/-- C5 (amended): the Consistency Engine is idempotent for problems with
at most one kind of constraint (no n-ary constraints, or no binary
constraints): re-running `enforceConsistency` on the pruned mapping of a
successful pass returns that mapping unchanged.  (With both kinds
present the GAC phase can break the AC-3 fixpoint, see the
counterexample.) -/
theorem enforceConsistency_idempotent_one_kind {V : Type}
    (assigned unassigned pruned : VarMap V) (csp : Problem V)
    (hkind : csp.constraints = [] ∨ csp.naryConstraints = [])
    (h : enforceConsistency assigned unassigned csp = some pruned) :
    enforceConsistency [] pruned csp = some pruned := by
  have hnodup : (vKeys pruned).Nodup := by
    rw [(enforceConsistency_vmSub assigned unassigned csp pruned h).1]
    exact mergeAssignment_nodup assigned unassigned
  have hmerge : mergeAssignment [] pruned = pruned :=
    mergeAssignment_nil_left pruned hnodup
  rcases hkind with hk | hk
  · have hb : csp.constraints.length = 0 := by rw [hk]; rfl
    by_cases hn : csp.naryConstraints.length = 0
    · simp [enforceConsistency, hb, hn, hmerge]
    · have hgac : runGAC csp (mergeAssignment assigned unassigned) =
          some pruned := by
        simp [enforceConsistency, hb, hn] at h
        exact h
      have hfix := (runGAC_fixpoint csp _ pruned hgac).2
      simp [enforceConsistency, hb, hn, hmerge, hfix]
  · have hn : csp.naryConstraints.length = 0 := by rw [hk]; rfl
    by_cases hb : csp.constraints.length = 0
    · simp [enforceConsistency, hb, hn, hmerge]
    · cases hac : runAC3 csp.constraints (mergeAssignment assigned unassigned) with
      | none => simp [enforceConsistency, hb, hn, hac] at h
      | some vm1 =>
        have hvm : vm1 = pruned := by
          simp [enforceConsistency, hb, hn, hac] at h
          exact h
        subst hvm
        have hfix := (runAC3_fixpoint csp.constraints _ vm1 hac).2
        simp [enforceConsistency, hb, hn, hmerge, hfix]

theorem enforceConsistency_idempotent_one_kind_witness :
    enforceConsistency ([] : VarMap Nat) [("x", [1, 2]), ("y", [2])]
        { vars := [("x", [1, 2]), ("y", [1, 2])],
          constraints := [⟨"x", "y", fun h t => decide (h < t)⟩],
          naryConstraints := [] }
      = some [("x", [1, 2]), ("y", [2])] :=
  enforceConsistency_idempotent_one_kind [] [("x", [1, 2]), ("y", [1, 2])]
    [("x", [1, 2]), ("y", [2])]
    { vars := [("x", [1, 2]), ("y", [1, 2])],
      constraints := [⟨"x", "y", fun h t => decide (h < t)⟩],
      naryConstraints := [] }
    (Or.inr rfl) rfl

/-! ## Search driver lemmas (used by completeness and soundness) -/

theorem finished_iff_nil {V : Type} (u : VarMap V) :
    finished u = true ↔ u = [] := by
  cases u <;> simp [finished, vKeys]

theorem selectGo_mem {V : Type} :
    ∀ (l : List (String × Dom V)) (best : Option String) (bl : Option Nat)
      (k' : String), selectGo l best bl = some k' →
      (best = some k' ∨ k' ∈ vKeys l)
  | [], best, bl, k' => by
    intro h
    exact Or.inl h
  | (k, dom) :: rest, best, bl, k' => by
    intro h
    simp only [selectGo] at h
    by_cases h1 : ltInf dom.length bl = true
    · rw [if_pos h1] at h
      by_cases h2 : dom.length = 1
      · rw [if_pos h2] at h
        injection h with h
        exact Or.inr (by simp [vKeys, h])
      · rw [if_neg h2] at h
        rcases selectGo_mem rest (some k) (some dom.length) k' h with h3 | h3
        · injection h3 with h3
          exact Or.inr (by simp [vKeys, h3])
        · exact Or.inr (by simp [vKeys]; exact Or.inr (by simpa [vKeys] using h3))
    · rw [if_neg h1] at h
      rcases selectGo_mem rest best bl k' h with h3 | h3
      · exact Or.inl h3
      · exact Or.inr (by simp [vKeys]; exact Or.inr (by simpa [vKeys] using h3))

theorem selectGo_isSome {V : Type} :
    ∀ (l : List (String × Dom V)) (k0 : String) (bl : Option Nat),
    (selectGo l (some k0) bl).isSome
  | [], k0, bl => by simp [selectGo]
  | (k, dom) :: rest, k0, bl => by
    simp only [selectGo]
    by_cases h1 : ltInf dom.length bl = true
    · rw [if_pos h1]
      by_cases h2 : dom.length = 1
      · rw [if_pos h2]; simp
      · rw [if_neg h2]
        exact selectGo_isSome rest k (some dom.length)
    · rw [if_neg h1]
      exact selectGo_isSome rest k0 bl

theorem select_nonempty {V : Type} (u : VarMap V) (hne : u ≠ []) :
    ∃ k, selectUnassignedVariable u = some k ∧ k ∈ vKeys u := by
  obtain ⟨⟨k0, d0⟩, rest, rfl⟩ : ∃ kv rest, u = kv :: rest := by
    cases u with
    | nil => exact absurd rfl hne
    | cons kv rest => exact ⟨kv, rest, rfl⟩
  unfold selectUnassignedVariable
  simp only [selectGo, ltInf, if_pos rfl]
  by_cases h2 : d0.length = 1
  · rw [if_pos h2]
    exact ⟨k0, rfl, by simp [vKeys]⟩
  · rw [if_neg h2]
    obtain ⟨k', hk'⟩ :=
      Option.isSome_iff_exists.mp (selectGo_isSome rest k0 (some d0.length))
    refine ⟨k', hk', ?_⟩
    rcases selectGo_mem rest (some k0) (some d0.length) k' hk' with h3 | h3
    · injection h3 with h3
      simp [vKeys, h3]
    · simp [vKeys]
      exact Or.inr (by simpa [vKeys] using h3)

theorem orderValues_perm {V : Type} (nextKey : String)
    (assigned unassigned : VarMap V) (csp : Problem V) :
    (orderValues nextKey assigned unassigned csp).Perm
      ((vLookup unassigned nextKey).getD []) := by
  unfold orderValues
  by_cases h : ((vLookup unassigned nextKey).getD []).length ≤ 1
  · rw [if_pos h]
  · rw [if_neg h]
    exact sortLe_perm _ _

theorem ec_no_constraints {V : Type} (assigned unassigned : VarMap V)
    (csp : Problem V) (hb : csp.constraints = [])
    (hn : csp.naryConstraints = []) :
    enforceConsistency assigned unassigned csp =
      some (mergeAssignment assigned unassigned) := by
  simp [enforceConsistency, hb, hn]

theorem mergeAssignment_disjoint {V : Type} (assigned unassigned : VarMap V)
    (hnd : (vKeys assigned ++ vKeys unassigned).Nodup) :
    mergeAssignment assigned unassigned = unassigned ++ assigned := by
  have h1 : (vKeys assigned).Nodup := (List.nodup_append.mp hnd).1
  have h2 : (vKeys unassigned).Nodup := (List.nodup_append.mp hnd).2.1
  have h3 : ∀ k ∈ vKeys assigned, k ∉ vKeys unassigned :=
    fun k hk hk2 => (List.nodup_append.mp hnd).2.2 hk hk2
  unfold mergeAssignment
  rw [foldl_vSet_fresh unassigned [] (fun k _ => rfl) h2]
  simp only [List.nil_append]
  rw [foldl_vSet_fresh assigned unassigned ?_ h1]
  intro k hk
  exact vLookup_eq_none_of_not_mem unassigned k (h3 k hk)

theorem vKeys_vErase {V : Type} :
    ∀ (u : VarMap V) (k : String), vKeys (vErase u k) = (vKeys u).erase k
  | [], k => rfl
  | (k0, d0) :: rest, k => by
    by_cases h0 : k0 = k
    · subst h0
      simp [vErase, vKeys, List.erase_cons]
    · have hbeq : (k0 == k) = false := by simp [h0]
      simp [vErase, h0, vKeys, List.erase_cons, hbeq]
      exact vKeys_vErase rest k

theorem vLookup_vErase_ne {V : Type} :
    ∀ (u : VarMap V) (k k' : String), k' ≠ k →
    vLookup (vErase u k) k' = vLookup u k'
  | [], k, k' => by intro _; rfl
  | (k0, d0) :: rest, k, k' => by
    intro hne
    by_cases h0 : k0 = k
    · subst h0
      have h1 : ¬ (k0 = k') := fun h => hne h.symm
      simp only [vErase, eq_self_iff_true, if_true, vLookup, if_neg h1]
    · simp only [vErase, if_neg h0, vLookup]
      by_cases h1 : k0 = k'
      · rw [if_pos h1, if_pos h1]
      · rw [if_neg h1, if_neg h1]
        exact vLookup_vErase_ne rest k k' hne

theorem mem_vErase_subset {V : Type} :
    ∀ (u : VarMap V) (k : String) (kv : String × Dom V),
    kv ∈ vErase u k → kv ∈ u
  | [], k, kv => by intro h; cases h
  | (k0, d0) :: rest, k, kv => by
    intro h
    by_cases h0 : k0 = k
    · subst h0
      simp only [vErase, if_pos rfl] at h
      exact List.mem_cons_of_mem _ h
    · simp only [vErase, if_neg h0] at h
      rcases List.mem_cons.mp h with rfl | h1
      · exact List.mem_cons_self _ _
      · exact List.mem_cons_of_mem _ (mem_vErase_subset rest k kv h1)

theorem vErase_length_of_mem {V : Type} :
    ∀ (u : VarMap V) (k : String), k ∈ vKeys u →
    (vErase u k).length + 1 = u.length
  | [], k => by intro h; simp [vKeys] at h
  | (k0, d0) :: rest, k => by
    intro h
    by_cases h0 : k0 = k
    · subst h0
      simp [vErase]
    · simp only [vKeys, List.map_cons, List.mem_cons] at h
      rcases h with rfl | h1
      · exact absurd rfl h0
      · simp only [vErase, if_neg h0, List.length_cons]
        rw [← vErase_length_of_mem rest k (by simpa [vKeys] using h1)]

theorem vLookup_mem {V : Type} :
    ∀ (u : VarMap V) (k : String) (d : Dom V),
    vLookup u k = some d → (k, d) ∈ u
  | [], k, d => by intro h; cases h
  | (k0, d0) :: rest, k, d => by
    intro h
    by_cases h0 : k0 = k
    · subst h0
      simp only [vLookup, if_pos rfl] at h
      injection h with h
      subst h
      exact List.mem_cons_self _ _
    · simp only [vLookup, if_neg h0] at h
      exact List.mem_cons_of_mem _ (vLookup_mem rest k d h)

theorem anyEmpty_eq_false {V : Type} (vm : VarMap V)
    (h : ∀ kv ∈ vm, kv.2 ≠ ([] : Dom V)) : anyEmpty vm = false := by
  unfold anyEmpty
  rw [List.any_eq_false]
  intro kv hkv
  simp only [decide_eq_true_eq]
  intro hlen
  exact h kv hkv (List.length_eq_zero.mp hlen)

theorem vLookup_map_snd {α β : Type} (f : α → β) :
    ∀ (l : VMap α) (k : String),
    vLookup (l.map (fun kv => (kv.1, f kv.2))) k = (vLookup l k).map f
  | [], k => rfl
  | (k0, v0) :: rest, k => by
    by_cases h0 : k0 = k <;>
      simp [vLookup, h0, vLookup_map_snd f rest k]


theorem filter_lookup_isSome_eq {V : Type} (c m : VarMap V)
    (h : ∀ kv ∈ c, kv.1 ∈ vKeys m) :
    c.filter (fun kv => (vLookup m kv.1).isSome) = c := by
  rw [List.filter_eq_self]
  intro kv hkv
  exact (vLookup_isSome_iff_mem m kv.1).mpr (h kv hkv)

theorem filter_lookup_isSome_nil {V : Type} (c m : VarMap V)
    (h : ∀ kv ∈ c, kv.1 ∉ vKeys m) :
    c.filter (fun kv => (vLookup m kv.1).isSome) = [] := by
  rw [List.filter_eq_nil_iff]
  intro kv hkv
  rw [vLookup_eq_none_of_not_mem m kv.1 (h kv hkv)]
  simp

theorem filter_lookup_isNone_eq {V : Type} (c m : VarMap V)
    (h : ∀ kv ∈ c, kv.1 ∉ vKeys m) :
    c.filter (fun kv => (vLookup m kv.1).isNone) = c := by
  rw [List.filter_eq_self]
  intro kv hkv
  rw [vLookup_eq_none_of_not_mem m kv.1 (h kv hkv)]
  rfl

theorem filter_lookup_isNone_nil {V : Type} (c m : VarMap V)
    (h : ∀ kv ∈ c, kv.1 ∈ vKeys m) :
    c.filter (fun kv => (vLookup m kv.1).isNone) = [] := by
  rw [List.filter_eq_nil_iff]
  intro kv hkv
  obtain ⟨x, hx⟩ :=
    Option.isSome_iff_exists.mp ((vLookup_isSome_iff_mem m kv.1).mpr (h kv hkv))
  rw [hx]
  simp

/-- With no constraints of either kind, `backtrack` always succeeds:
it keeps every already-assigned binding and maps each still-unassigned
variable to a singleton taken from that variable's own domain. -/
theorem backtrack_no_constraints {V : Type} (csp : Problem V)
    (hb : csp.constraints = []) (hn : csp.naryConstraints = []) :
    ∀ (fuel : Nat) (a u : VarMap V),
    u.length < fuel →
    (vKeys a ++ vKeys u).Nodup →
    (∀ kv ∈ a, kv.2 ≠ ([] : Dom V)) →
    (∀ kv ∈ u, kv.2 ≠ ([] : Dom V)) →
    ∃ r, backtrack fuel a u csp = some (some r) ∧
      (∀ k d, vLookup a k = some d → vLookup r k = some d) ∧
      (∀ k d, vLookup u k = some d → ∃ v, v ∈ d ∧ vLookup r k = some [v])
  | 0, a, u => by
    intro hfuel _ _ _
    exact absurd hfuel (Nat.not_lt_zero _)
  | fuel + 1, a, u => by
    intro hfuel hnd hane hune
    by_cases hu : u = []
    · subst hu
      refine ⟨a, ?_, fun k d hk => hk, fun k d hk => by simp [vLookup] at hk⟩
      simp [backtrack, cloneAssignment, finished, vKeys]
    · obtain ⟨nextKey, hsel, hselmem⟩ := select_nonempty u hu
      have hsome : (vLookup u nextKey).isSome :=
        (vLookup_isSome_iff_mem u nextKey).mpr hselmem
      obtain ⟨d0, hd0⟩ := Option.isSome_iff_exists.mp hsome
      have hd0ne : d0 ≠ [] := hune (nextKey, d0) (vLookup_mem u nextKey d0 hd0)
      have hperm : (orderValues nextKey a u csp).Perm d0 := by
        have h1 := orderValues_perm nextKey a u csp
        rw [hd0] at h1
        exact h1
      obtain ⟨val, vals', hvals⟩ :
          ∃ val vals', orderValues nextKey a u csp = val :: vals' := by
        cases hv : orderValues nextKey a u csp with
        | nil =>
          rw [hv] at hperm
          exact absurd hperm.symm.eq_nil hd0ne
        | cons val vals' => exact ⟨val, vals', rfl⟩
      have hvald : val ∈ d0 :=
        hperm.subset (by rw [hvals]; exact List.mem_cons_self val vals')
      have hfin : finished u = false := by
        cases hf : finished u with
        | true => exact absurd ((finished_iff_nil u).mp hf) hu
        | false => rfl
      have hnotinA : nextKey ∉ vKeys a := by
        intro hmem
        exact (List.nodup_append.mp hnd).2.2 hmem hselmem
      have ha' : vSet a nextKey [val] = a ++ [(nextKey, [val])] :=
        vSet_append_of_none a nextKey [val]
          (vLookup_eq_none_of_not_mem a nextKey hnotinA)
      have hkeysa' : vKeys (vSet a nextKey [val]) = vKeys a ++ [nextKey] := by
        rw [ha']
        simp [vKeys]
      have hkeysu2 : vKeys (vErase u nextKey) = (vKeys u).erase nextKey :=
        vKeys_vErase u nextKey
      have hperm2 : (vKeys a ++ vKeys u).Perm
          (vKeys (vSet a nextKey [val]) ++ vKeys (vErase u nextKey)) := by
        rw [hkeysa', hkeysu2, List.append_assoc, List.singleton_append]
        exact List.Perm.append_left _ (List.perm_cons_erase hselmem)
      have hnd' : (vKeys (vSet a nextKey [val]) ++
          vKeys (vErase u nextKey)).Nodup := hperm2.nodup hnd
      have hdisj : ∀ kv ∈ vErase u nextKey,
          kv.1 ∉ vKeys (vSet a nextKey [val]) := by
        intro kv hkv hk2
        exact (List.nodup_append.mp hnd').2.2 hk2
          (List.mem_map_of_mem Prod.fst hkv)
      have hfuel' : (vErase u nextKey).length < fuel := by
        have := vErase_length_of_mem u nextKey hselmem
        omega
      have hane' : ∀ kv ∈ vSet a nextKey [val], kv.2 ≠ ([] : Dom V) := by
        intro kv hkv
        rw [ha'] at hkv
        rcases List.mem_append.mp hkv with h1 | h1
        · exact hane kv h1
        · rw [List.mem_singleton.mp h1]
          simp
      have hune' : ∀ kv ∈ vErase u nextKey, kv.2 ≠ ([] : Dom V) :=
        fun kv hkv => hune kv (mem_vErase_subset u nextKey kv hkv)
      obtain ⟨r, hr, hrA, hrU⟩ :=
        backtrack_no_constraints csp hb hn fuel (vSet a nextKey [val])
          (vErase u nextKey) hfuel' hnd' hane' hune'
      have hmerge : mergeAssignment (vSet a nextKey [val]) (vErase u nextKey) =
          vErase u nextKey ++ vSet a nextKey [val] :=
        mergeAssignment_disjoint _ _ hnd'
      have hsplitA : (vErase u nextKey ++ vSet a nextKey [val]).filter
          (fun kv => (vLookup (vSet a nextKey [val]) kv.1).isSome) =
          vSet a nextKey [val] := by
        rw [List.filter_append,
          filter_lookup_isSome_nil (vErase u nextKey) (vSet a nextKey [val])
            hdisj,
          filter_lookup_isSome_eq (vSet a nextKey [val]) (vSet a nextKey [val])
            (fun kv hkv => List.mem_map_of_mem Prod.fst hkv),
          List.nil_append]
      have hsplitU : (vErase u nextKey ++ vSet a nextKey [val]).filter
          (fun kv => (vLookup (vSet a nextKey [val]) kv.1).isNone) =
          vErase u nextKey := by
        rw [List.filter_append,
          filter_lookup_isNone_eq (vErase u nextKey) (vSet a nextKey [val])
            hdisj,
          filter_lookup_isNone_nil (vSet a nextKey [val]) (vSet a nextKey [val])
            (fun kv hkv => List.mem_map_of_mem Prod.fst hkv),
          List.append_nil]
      have hanyE : anyEmpty (vErase u nextKey ++ vSet a nextKey [val]) =
          false := by
        apply anyEmpty_eq_false
        intro kv hkv
        rcases List.mem_append.mp hkv with h1 | h1
        · exact hune' kv h1
        · exact hane' kv h1
      have hec : ∀ (x y : VarMap V), enforceConsistency x y csp =
          some (mergeAssignment x y) :=
        fun x y => ec_no_constraints x y csp hb hn
      have hbt : backtrack (fuel + 1) a u csp =
          tryValues (fun a2 u2 => backtrack fuel a2 u2 csp) a
            (vErase u nextKey) csp nextKey (orderValues nextKey a u csp) := by
        simp only [backtrack, cloneAssignment, hfin, Bool.false_eq_true,
          if_false, hsel]
      have hcomp : tryValues (fun a2 u2 => backtrack fuel a2 u2 csp) a
          (vErase u nextKey) csp nextKey (val :: vals') = some (some r) := by
        simp only [tryValues, hec, hmerge, hsplitA, hsplitU, hanyE,
          Bool.false_eq_true, if_false, hr]
      refine ⟨r, ?_, ?_, ?_⟩
      · rw [hbt, hvals]
        exact hcomp
      · intro k d hk
        have hkmem : k ∈ vKeys a :=
          mem_of_vLookup_isSome a k (by rw [hk]; rfl)
        have hkne : k ≠ nextKey := fun he => hnotinA (he ▸ hkmem)
        refine hrA k d ?_
        rw [vLookup_set_ne a nextKey k [val] hkne]
        exact hk
      · intro k d hk
        by_cases hkn : k = nextKey
        · have hd : d = d0 := by
            rw [hkn, hd0] at hk
            exact (Option.some.inj hk).symm
          refine ⟨val, by rw [hd]; exact hvald, ?_⟩
          rw [hkn]
          exact hrA nextKey [val] (vLookup_set_self a nextKey [val])
        · refine hrU k d ?_
          rw [vLookup_vErase_ne u nextKey k hkn]
          exact hk

/-- C8 (Completeness on unconstrained problems): for every raw problem
whose binary and n-ary constraint lists are empty (or absent), whose
declared variable names are distinct, and in which every variable's
domain is an array that is non-empty, `CSP.solve` never returns the
`FAILURE` sentinel: it succeeds with an assignment giving each declared
variable some value drawn from that variable's own domain. -/
theorem solve_complete_no_constraints {V : Type} (raw : RawProblem V)
    (hb : raw.constraints.getD [] = [])
    (hn : raw.naryConstraints.getD [] = [])
    (hnd : (vKeys raw.vars).Nodup)
    (hdom : ∀ kv ∈ raw.vars, ∃ d, kv.2 = some d ∧ d ≠ ([] : Dom V)) :
    ∃ out, CSP.solve raw = Except.ok (some out) ∧
      ∀ k d, vLookup raw.vars k = some (some d) →
        ∃ v, v ∈ d ∧ vLookup out k = some (some v) := by
  have hbc : (normalizeProblem raw).constraints = [] := by
    simp [normalizeProblem, hb]
  have hnc : (normalizeProblem raw).naryConstraints = [] := by
    simp [normalizeProblem, hn]
  have hkeys : vKeys (normalizeProblem raw).vars = vKeys raw.vars := by
    simp [normalizeProblem, vKeys, List.map_map, Function.comp]
  have hval : validateProblem (normalizeProblem raw) = Except.ok () := by
    unfold validateProblem
    rw [validateVars_ok, hbc, hnc]
    rfl
  have hdom' : ∀ kv ∈ (normalizeProblem raw).vars, kv.2 ≠ ([] : Dom V) := by
    intro kv hkv
    simp only [normalizeProblem, List.mem_map] at hkv
    obtain ⟨⟨k0, od⟩, hmem, heq⟩ := hkv
    obtain ⟨d, hd, hdne⟩ := hdom (k0, od) hmem
    rw [← heq]
    show od.getD [] ≠ []
    rw [show od = some d from hd]
    exact hdne
  obtain ⟨r, hr, hrA, hrU⟩ :=
    backtrack_no_constraints (normalizeProblem raw) hbc hnc
      ((normalizeProblem raw).vars.length + 1) []
      (cloneVars (normalizeProblem raw).vars)
      (by simp only [cloneVars]; exact Nat.lt_succ_self _)
      (by
        simp only [cloneVars, vKeys, List.map_nil, List.nil_append]
        rw [show (normalizeProblem raw).vars.map Prod.fst =
          vKeys (normalizeProblem raw).vars from rfl, hkeys]
        exact hnd)
      (by intro kv hkv; cases hkv)
      (by
        intro kv hkv
        exact hdom' kv (by simpa [cloneVars] using hkv))
  have hsolve : CSP.solve raw =
      Except.ok (some (r.map (fun kv => (kv.1, kv.2.head?)))) := by
    simp only [CSP.solve, hval, hr, Option.getD_some]
  refine ⟨r.map (fun kv => (kv.1, kv.2.head?)), hsolve, ?_⟩
  intro k d hk
  have h2 : vLookup (normalizeProblem raw).vars k =
      (vLookup raw.vars k).map (fun o => o.getD []) :=
    vLookup_map_getD raw.vars k
  have h3 : vLookup (cloneVars (normalizeProblem raw).vars) k = some d := by
    simp only [cloneVars]
    rw [h2, hk]
    rfl
  obtain ⟨v, hv, hrk⟩ := hrU k d h3
  refine ⟨v, hv, ?_⟩
  have h4 : vLookup (r.map (fun kv => (kv.1, kv.2.head?))) k =
      (vLookup r k).map (fun l => l.head?) := vLookup_map_snd _ r k
  rw [h4, hrk]
  rfl

theorem solve_complete_no_constraints_witness :
    ∃ out, CSP.solve ⟨[("x", some [5])], some [], none⟩ =
        Except.ok (some out) ∧
      ∀ k d, vLookup [("x", some ([5] : Dom Nat))] k = some (some d) →
        ∃ v, v ∈ d ∧ vLookup out k = some (some v) :=
  solve_complete_no_constraints ⟨[("x", some [5])], some [], none⟩
    rfl rfl (by decide)
    (by
      intro kv hkv
      rw [List.mem_singleton] at hkv
      subst hkv
      exact ⟨[5], rfl, by decide⟩)

/-! ## Soundness of the search driver -/

theorem vLookup_of_mem_nodup {α : Type} :
    ∀ (l : VMap α), (vKeys l).Nodup → ∀ kv ∈ l, vLookup l kv.1 = some kv.2
  | [] => by
    intro _ kv hkv
    cases hkv
  | (k0, v0) :: rest => by
    intro hnd kv hkv
    simp only [vKeys, List.map_cons, List.nodup_cons] at hnd
    obtain ⟨hk0, hnd2⟩ := hnd
    rcases List.mem_cons.mp hkv with rfl | h1
    · simp [vLookup]
    · have hne : ¬ (k0 = kv.1) := by
        intro he
        exact hk0 (by rw [he]; exact List.mem_map_of_mem Prod.fst h1)
      simp only [vLookup, if_neg hne]
      exact vLookup_of_mem_nodup rest hnd2 kv h1

theorem sublist_singleton_ne_nil {α : Type} {l : List α} {v : α}
    (h : l.Sublist [v]) (hne : l ≠ []) : l = [v] := by
  rcases List.sublist_singleton.mp h with h1 | h1
  · exact absurd h1 hne
  · exact h1

theorem vmSub_eq_of_singleton {V : Type} :
    ∀ (m' m : VarMap V), vmSub m' m →
    (∀ kv ∈ m, ∃ v, kv.2 = [v]) → (vKeys m).Nodup →
    (∀ kv ∈ m', kv.2 ≠ ([] : Dom V)) → m' = m
  | [], [], _, _, _, _ => rfl
  | [], (k, d) :: m, hsub, _, _, _ => by
    exact absurd hsub.1 (by simp [vKeys])
  | (k', d') :: m', [], hsub, _, _, _ => by
    exact absurd hsub.1 (by simp [vKeys])
  | (k', d') :: m', (k, d) :: m, hsub, hs, hnd, hne => by
    obtain ⟨hkeys, hlook⟩ := hsub
    simp only [vKeys, List.map_cons, List.cons.injEq] at hkeys
    obtain ⟨hk, hkeys2⟩ := hkeys
    subst hk
    simp only [vKeys, List.map_cons, List.nodup_cons] at hnd
    obtain ⟨hknot, hnd2⟩ := hnd
    obtain ⟨x, hx⟩ := hs (k', d) (List.mem_cons_self _ _)
    have hd'sub : d'.Sublist d := by
      obtain ⟨dd, hdd, hsl⟩ := hlook k' d' (by simp [vLookup])
      rw [show vLookup ((k', d) :: m) k' = some d from by simp [vLookup]]
        at hdd
      injection hdd with hdd
      rw [hdd]
      exact hsl
    have hd' : d' = d := by
      rw [show d = [x] from hx] at hd'sub ⊢
      exact sublist_singleton_ne_nil hd'sub
        (hne (k', d') (List.mem_cons_self _ _))
    have hsub2 : vmSub m' m := by
      refine ⟨hkeys2, ?_⟩
      intro w e hw
      have hwk : ¬ (k' = w) := by
        intro he
        subst he
        have h2 : k' ∈ vKeys m' :=
          mem_of_vLookup_isSome m' k' (by rw [hw]; rfl)
        simp only [vKeys] at h2
        rw [hkeys2] at h2
        exact hknot h2
      obtain ⟨dd, hdd, hsl⟩ := hlook w e (by
        simp only [vLookup, if_neg hwk]
        exact hw)
      simp only [vLookup, if_neg hwk] at hdd
      exact ⟨dd, hdd, hsl⟩
    have htail : m' = m :=
      vmSub_eq_of_singleton m' m hsub2
        (fun kv hkv => hs kv (List.mem_cons_of_mem _ hkv)) hnd2
        (fun kv hkv => hne kv (List.mem_cons_of_mem _ hkv))
    rw [hd', htail]

theorem vKeys_filter_key {α : Type} (q : String → Bool) :
    ∀ (l : VMap α),
    vKeys (l.filter (fun kv => q kv.1)) = (vKeys l).filter q
  | [] => rfl
  | (k0, v0) :: rest => by
    have ih := vKeys_filter_key q rest
    simp only [vKeys] at ih ⊢
    by_cases h0 : q k0 = true <;> simp [List.filter_cons, h0, ih]

/-- A variable-to-singleton-domain mapping satisfies the problem: every
binary predicate is true on the (head, tail) values, and every n-ary
predicate returns `some true` on the tuple binding each participant to
its value. -/
def satAssignment {V : Type} (csp : Problem V) (m : VarMap V) : Prop :=
  (∀ c ∈ csp.constraints, ∃ h t, vLookup m c.head = some [h] ∧
    vLookup m c.tail = some [t] ∧ c.pred h t = true) ∧
  (∀ C ∈ csp.naryConstraints,
    C.predicate (fun w =>
      if w ∈ C.vars then ((vLookup m w).getD []).head? else none) =
      some true)

/-- On an all-singleton mapping, a successful AC-3 loop run changes
nothing, and every queued arc whose endpoints are present satisfies its
predicate on the two singleton values. -/
theorem runAC3Loop_singleton {V : Type} (cs : List (BinC V))
    (S : VarMap V) (hS : ∀ kv ∈ S, ∃ v, kv.2 = [v]) :
    ∀ (fuel : Nat) (queue : List (BinC V)) (vmf : VarMap V),
    runAC3Loop cs fuel queue S = some (some vmf) →
    vmf = S ∧ ∀ c ∈ queue, ∀ h t, vLookup S c.head = some [h] →
      vLookup S c.tail = some [t] → c.pred h t = true
  | 0, queue, vmf => by
    intro h
    cases h
  | fuel + 1, [], vmf => by
    intro h
    simp only [runAC3Loop] at h
    injection h with h
    injection h with h
    exact ⟨h.symm, fun c hc => absurd hc (List.not_mem_nil c)⟩
  | fuel + 1, c :: queue, vmf => by
    intro h
    cases hh : vLookup S c.head with
    | none =>
      simp only [runAC3Loop, hh] at h
      obtain ⟨h1, h2⟩ := runAC3Loop_singleton cs S hS fuel queue vmf h
      refine ⟨h1, ?_⟩
      intro c' hc' h0 t0 hh0 ht0
      rcases List.mem_cons.mp hc' with rfl | hmem
      · rw [hh] at hh0
        cases hh0
      · exact h2 c' hmem h0 t0 hh0 ht0
    | some hv =>
      cases ht : vLookup S c.tail with
      | none =>
        simp only [runAC3Loop, hh, ht] at h
        obtain ⟨h1, h2⟩ := runAC3Loop_singleton cs S hS fuel queue vmf h
        refine ⟨h1, ?_⟩
        intro c' hc' h0 t0 hh0 ht0
        rcases List.mem_cons.mp hc' with rfl | hmem
        · rw [ht] at ht0
          cases ht0
        · exact h2 c' hmem h0 t0 hh0 ht0
      | some tv =>
        obtain ⟨h0, hhv⟩ := hS (c.head, hv) (vLookup_mem S c.head hv hh)
        obtain ⟨t0, htv⟩ := hS (c.tail, tv) (vLookup_mem S c.tail tv ht)
        simp only at hhv htv
        subst hhv
        subst htv
        have hfil : ([t0].filter (fun t => [h0].any (fun h2 => c.pred h2 t)))
            = if c.pred h0 t0 then [t0] else [] := by
          simp [List.filter_cons, List.any_cons]
        by_cases hp : c.pred h0 t0 = true
        · rw [if_pos hp] at hfil
          simp only [runAC3Loop, hh, ht, hfil, List.length_cons,
            List.length_nil, if_pos rfl] at h
          rw [vSet_eq_self S c.tail [t0] ht] at h
          obtain ⟨h1, h2⟩ := runAC3Loop_singleton cs S hS fuel queue vmf h
          refine ⟨h1, ?_⟩
          intro c' hc' h1' t1' hh0 ht0
          rcases List.mem_cons.mp hc' with rfl | hmem
          · rw [hh] at hh0
            injection hh0 with hh0
            rw [ht] at ht0
            injection ht0 with ht0
            have e1 : h1' = h0 := (List.cons.inj hh0).1.symm
            have e2 : t1' = t0 := (List.cons.inj ht0).1.symm
            rw [e1, e2]
            exact hp
          · exact h2 c' hmem h1' t1' hh0 ht0
        · rw [if_neg hp] at hfil
          simp only [runAC3Loop, hh, ht, hfil, List.length_cons,
            List.length_nil] at h
          rw [if_neg (by omega), if_pos trivial] at h
          exact Option.noConfusion (Option.some.inj h)

/-- On an all-singleton mapping, a successful revision pass changes
nothing and certifies support for every present value. -/
theorem reviseVars_singleton {V : Type} (C : NaryC V)
    (S : VarMap V) (hS : ∀ kv ∈ S, ∃ v, kv.2 = [v]) :
    ∀ (vs : List String) (changed : Bool) (res : Bool × VarMap V),
    reviseVars C vs S changed = some res →
    res = (changed, S) ∧
    ∀ v ∈ vs, ∀ dom, vLookup S v = some dom → ∀ x ∈ dom,
      hasSupport v x C S = true
  | [], changed, res => by
    intro h
    simp only [reviseVars] at h
    injection h with h
    exact ⟨h.symm, fun v hv => absurd hv (List.not_mem_nil v)⟩
  | v :: rest, changed, res => by
    intro h
    cases hv : vLookup S v with
    | none =>
      simp only [reviseVars, hv] at h
      obtain ⟨h1, h2⟩ := reviseVars_singleton C S hS rest changed res h
      refine ⟨h1, ?_⟩
      intro v' hv' dom hdom x hx
      rcases List.mem_cons.mp hv' with rfl | hmem
      · rw [hv] at hdom
        cases hdom
      · exact h2 v' hmem dom hdom x hx
    | some dom0 =>
      obtain ⟨x0, hx0⟩ := hS (v, dom0) (vLookup_mem S v dom0 hv)
      simp only at hx0
      subst hx0
      have hfil : ([x0].filter (fun val => hasSupport v val C S)) =
          if hasSupport v x0 C S then [x0] else [] := by
        simp [List.filter_cons]
      by_cases hsup : hasSupport v x0 C S = true
      · rw [if_pos hsup] at hfil
        simp only [reviseVars, hv, hfil, List.length_cons, List.length_nil,
          if_pos rfl] at h
        obtain ⟨h1, h2⟩ := reviseVars_singleton C S hS rest changed res h
        refine ⟨h1, ?_⟩
        intro v' hv' dom hdom x hx
        rcases List.mem_cons.mp hv' with rfl | hmem
        · rw [hv] at hdom
          injection hdom with hdom
          rw [← hdom] at hx
          rw [List.mem_singleton.mp hx]
          exact hsup
        · exact h2 v' hmem dom hdom x hx
      · rw [if_neg hsup] at hfil
        simp only [reviseVars, hv, hfil, List.length_cons,
          List.length_nil] at h
        rw [if_pos trivial] at h
        cases h

/-- On an all-singleton mapping, a successful GAC loop run changes
nothing and certifies support for every present value of every queued
constraint's participants. -/
theorem runGACLoop_singleton {V : Type} (csp : Problem V)
    (index : VMap (List Nat)) (S : VarMap V)
    (hS : ∀ kv ∈ S, ∃ v, kv.2 = [v]) :
    ∀ (fuel : Nat) (queue : List Nat) (vmf : VarMap V),
    runGACLoop csp index fuel queue S = some (some vmf) →
    vmf = S ∧ ∀ (j : Nat), j ∈ queue → ∀ C : NaryC V,
      csp.naryConstraints[j]? = some C →
      ∀ v ∈ C.vars, ∀ dom, vLookup S v = some dom → ∀ x ∈ dom,
        hasSupport v x C S = true
  | 0, queue, vmf => by
    intro h
    cases h
  | fuel + 1, [], vmf => by
    intro h
    simp only [runGACLoop] at h
    injection h with h
    injection h with h
    exact ⟨h.symm, fun j hj => absurd hj (List.not_mem_nil j)⟩
  | fuel + 1, j :: queue, vmf => by
    intro h
    cases hj : csp.naryConstraints[j]? with
    | none =>
      simp only [runGACLoop, hj] at h
      obtain ⟨h1, h2⟩ := runGACLoop_singleton csp index S hS fuel queue vmf h
      refine ⟨h1, ?_⟩
      intro j' hj' C hC
      rcases List.mem_cons.mp hj' with rfl | hmem
      · rw [hj] at hC
        cases hC
      · exact h2 j' hmem C hC
    | some C0 =>
      cases hrev : reviseVars C0 C0.vars S false with
      | none =>
        simp only [runGACLoop, hj, hrev] at h
        exact Option.noConfusion (Option.some.inj h)
      | some res =>
        obtain ⟨chg, vm'⟩ := res
        obtain ⟨h1, h2⟩ :=
          reviseVars_singleton C0 S hS C0.vars false (chg, vm') hrev
        injection h1 with hchg hvm
        subst hchg
        rw [hvm] at hrev
        simp only [runGACLoop, hj, hrev, Bool.false_eq_true, if_false] at h
        obtain ⟨hh1, hh2⟩ := runGACLoop_singleton csp index S hS fuel queue vmf h
        refine ⟨hh1, ?_⟩
        intro j' hj' C hC
        rcases List.mem_cons.mp hj' with rfl | hmem
        · rw [hj] at hC
          injection hC with hC
          subst hC
          exact h2
        · exact hh2 j' hmem C hC

/-- On an all-singleton mapping with all participants present, support of
every present value yields satisfaction of the n-ary predicate on the
tuple of singleton values. -/
theorem hasSupport_all_singleton_predicate {V : Type} (C : NaryC V)
    (S : VarMap V) (hS : ∀ kv ∈ S, ∃ v, kv.2 = [v])
    (hvars : ∀ v ∈ C.vars, v ∈ vKeys S) (hvne : C.vars ≠ [])
    (hsup : ∀ v ∈ C.vars, ∀ dom, vLookup S v = some dom → ∀ x ∈ dom,
      hasSupport v x C S = true) :
    C.predicate (fun w =>
      if w ∈ C.vars then ((vLookup S w).getD []).head? else none) =
      some true := by
  obtain ⟨v0, vs, hv0⟩ : ∃ v0 vs, C.vars = v0 :: vs := by
    cases hcv : C.vars with
    | nil => exact absurd hcv hvne
    | cons v0 vs => exact ⟨v0, vs, rfl⟩
  have hv0mem : v0 ∈ C.vars := by
    rw [hv0]
    exact List.mem_cons_self _ _
  obtain ⟨dom0, hdom0⟩ := Option.isSome_iff_exists.mp
    ((vLookup_isSome_iff_mem S v0).mpr (hvars v0 hv0mem))
  obtain ⟨x0, hx0⟩ := hS (v0, dom0) (vLookup_mem S v0 dom0 hdom0)
  simp only at hx0
  subst hx0
  have hsup0 : hasSupport v0 x0 C S = true :=
    hsup v0 hv0mem [x0] hdom0 x0 (List.mem_singleton.mpr rfl)
  obtain ⟨f, hf, hpred⟩ := (hasSupport_char v0 x0 C S).1.mp hsup0
  have hfun : (fun w => if w = v0 then some x0
      else if w ∈ C.vars then some (f w) else none) =
      (fun w => if w ∈ C.vars then ((vLookup S w).getD []).head?
        else none) := by
    funext w
    by_cases hw0 : w = v0
    · subst hw0
      rw [if_pos rfl, if_pos hv0mem, hdom0]
      rfl
    · rw [if_neg hw0]
      by_cases hwc : w ∈ C.vars
      · rw [if_pos hwc, if_pos hwc]
        obtain ⟨dom, hdom, hfw⟩ := hf w hwc hw0
        obtain ⟨y, hy⟩ := hS (w, dom) (vLookup_mem S w dom hdom)
        simp only at hy
        subst hy
        rw [hdom, List.mem_singleton.mp hfw]
        rfl
      · rw [if_neg hwc, if_neg hwc]
  exact hfun ▸ hpred

/-- A successful consistency pass over an all-singleton assigned mapping
(with no unassigned variables) prunes nothing — and certifies that the
singleton mapping satisfies every binary and n-ary constraint whose
participants are among its keys. -/
theorem ec_singleton_sound {V : Type} (csp : Problem V) (S cons : VarMap V)
    (hbv : ∀ c ∈ csp.constraints, c.head ∈ vKeys S ∧ c.tail ∈ vKeys S)
    (hnv : ∀ C ∈ csp.naryConstraints,
      C.vars ≠ [] ∧ ∀ v ∈ C.vars, v ∈ vKeys S)
    (hS : ∀ kv ∈ S, ∃ v, kv.2 = [v])
    (hnd : (vKeys S).Nodup)
    (hec : enforceConsistency S [] csp = some cons) :
    cons = S ∧ satAssignment csp S := by
  have hmerge : mergeAssignment S [] = S := by
    have h0 : (vKeys S ++ vKeys ([] : VarMap V)).Nodup := by
      simpa [vKeys] using hnd
    rw [mergeAssignment_disjoint S [] h0]
    rfl
  have hbinSat : csp.constraints.length ≠ 0 →
      runAC3 csp.constraints S = some S ∧
      ∀ c ∈ csp.constraints, ∃ h t, vLookup S c.head = some [h] ∧
        vLookup S c.tail = some [t] ∧ c.pred h t = true := by
    intro hb0
    cases hac : runAC3 csp.constraints S with
    | none =>
      simp only [enforceConsistency, hmerge, if_neg hb0, hac] at hec
      cases hec
    | some vm1 =>
      have hloop := runAC3_eq csp.constraints S
      rw [hac] at hloop
      obtain ⟨hvm1S, hsatAC⟩ := runAC3Loop_singleton csp.constraints S hS
        (ac3Fuel csp.constraints S) csp.constraints vm1 hloop
      refine ⟨by rw [hvm1S], ?_⟩
      intro c hc
      obtain ⟨hhead, htail⟩ := hbv c hc
      obtain ⟨hd, hhd⟩ := Option.isSome_iff_exists.mp
        ((vLookup_isSome_iff_mem S c.head).mpr hhead)
      obtain ⟨h0, hh0⟩ := hS (c.head, hd) (vLookup_mem S c.head hd hhd)
      simp only at hh0
      subst hh0
      obtain ⟨td, htd⟩ := Option.isSome_iff_exists.mp
        ((vLookup_isSome_iff_mem S c.tail).mpr htail)
      obtain ⟨t0, ht0⟩ := hS (c.tail, td) (vLookup_mem S c.tail td htd)
      simp only at ht0
      subst ht0
      exact ⟨h0, t0, hhd, htd, hsatAC c hc h0 t0 hhd htd⟩
  have hnarySat : csp.naryConstraints.length ≠ 0 →
      runGAC csp S = some cons →
      cons = S ∧ ∀ C ∈ csp.naryConstraints,
        C.predicate (fun w =>
          if w ∈ C.vars then ((vLookup S w).getD []).head? else none) =
          some true := by
    intro hn0 hgac
    have hloop := runGAC_eq csp S
    rw [hgac] at hloop
    obtain ⟨hconsS, hsatGAC⟩ := runGACLoop_singleton csp
      (buildNaryIndex csp.naryConstraints) S hS (gacFuel csp S)
      (List.range csp.naryConstraints.length) cons hloop
    refine ⟨hconsS, ?_⟩
    intro C hC
    obtain ⟨j, hj⟩ := List.mem_iff_getElem?.mp hC
    have hjlt : j < csp.naryConstraints.length :=
      (List.getElem?_eq_some.mp hj).1
    have hjq : j ∈ List.range csp.naryConstraints.length :=
      List.mem_range.mpr hjlt
    obtain ⟨hvne, hvars⟩ := hnv C hC
    exact hasSupport_all_singleton_predicate C S hS hvars hvne
      (hsatGAC j hjq C hj)
  by_cases hb0 : csp.constraints.length = 0
  · have hbnil : csp.constraints = [] := List.length_eq_zero.mp hb0
    by_cases hn0 : csp.naryConstraints.length = 0
    · have hnnil : csp.naryConstraints = [] := List.length_eq_zero.mp hn0
      simp only [enforceConsistency, hmerge, if_pos hb0, if_pos hn0] at hec
      injection hec with hec
      refine ⟨hec.symm, ?_, ?_⟩
      · intro c hc
        rw [hbnil] at hc
        cases hc
      · intro C hC
        rw [hnnil] at hC
        cases hC
    · simp only [enforceConsistency, hmerge, if_pos hb0, if_neg hn0] at hec
      obtain ⟨hconsS, hnary⟩ := hnarySat hn0 hec
      refine ⟨hconsS, ?_, hnary⟩
      intro c hc
      rw [hbnil] at hc
      cases hc
  · obtain ⟨hac, hbin⟩ := hbinSat hb0
    by_cases hn0 : csp.naryConstraints.length = 0
    · have hnnil : csp.naryConstraints = [] := List.length_eq_zero.mp hn0
      simp only [enforceConsistency, hmerge, if_neg hb0, hac,
        if_pos hn0] at hec
      injection hec with hec
      refine ⟨hec.symm, hbin, ?_⟩
      intro C hC
      rw [hnnil] at hC
      cases hC
    · simp only [enforceConsistency, hmerge, if_neg hb0, hac,
        if_neg hn0] at hec
      obtain ⟨hconsS, hnary⟩ := hnarySat hn0 hec
      exact ⟨hconsS, hbin, hnary⟩

theorem ne_nil_of_anyEmpty_false {V : Type} (vm : VarMap V)
    (h : anyEmpty vm = false) : ∀ kv ∈ vm, kv.2 ≠ ([] : Dom V) := by
  unfold anyEmpty at h
  rw [List.any_eq_false] at h
  intro kv hkv hnil
  exact (h kv hkv) (by simp [hnil])

theorem vLookup_append_right {α : Type} (l1 l2 : VMap α) (k : String)
    (h : k ∉ vKeys l1) : vLookup (l1 ++ l2) k = vLookup l2 k := by
  simp only [vLookup_append, vLookup_eq_none_of_not_mem l1 k h]

/-- Soundness of the value loop of `backtrack`: any successful result of
`tryValues` satisfies the search postcondition, given that the recursive
calls do. -/
theorem tryValues_sound {V : Type} (csp : Problem V)
    (hbv : ∀ c ∈ csp.constraints,
      c.head ∈ vKeys csp.vars ∧ c.tail ∈ vKeys csp.vars)
    (hnv : ∀ C ∈ csp.naryConstraints,
      C.vars ≠ [] ∧ ∀ v ∈ C.vars, v ∈ vKeys csp.vars)
    (bt : VarMap V → VarMap V → Option (Option (VarMap V)))
    (a u2 : VarMap V) (nextKey : String)
    (IH : ∀ (a2 u3 : VarMap V) (r : VarMap V),
      bt a2 u3 = some (some r) →
      (vKeys a2 ++ vKeys u3).Nodup →
      (vKeys a2 ++ vKeys u3).Perm (vKeys csp.vars) →
      (∀ kv ∈ a2, ∃ v, kv.2 = [v]) →
      (u3 = [] → satAssignment csp a2) →
      (vKeys r).Perm (vKeys csp.vars) ∧ (∀ kv ∈ r, ∃ v, kv.2 = [v]) ∧
        satAssignment csp r)
    (hnotinA : nextKey ∉ vKeys a)
    (hnotinU : nextKey ∉ vKeys u2)
    (hnd : (vKeys a ++ vKeys u2).Nodup)
    (hperm : ((vKeys a ++ [nextKey]) ++ vKeys u2).Perm (vKeys csp.vars))
    (ha : ∀ kv ∈ a, ∃ v, kv.2 = [v]) :
    ∀ (values : List V) (r : VarMap V),
    tryValues bt a u2 csp nextKey values = some (some r) →
    (vKeys r).Perm (vKeys csp.vars) ∧ (∀ kv ∈ r, ∃ v, kv.2 = [v]) ∧
      satAssignment csp r
  | [], r => by
    intro h
    simp only [tryValues] at h
    injection h with h
    cases h
  | val :: rest, r => by
    intro h
    cases hec : enforceConsistency (vSet a nextKey [val]) u2 csp with
    | none =>
      simp only [tryValues, hec] at h
      exact tryValues_sound csp hbv hnv bt a u2 nextKey IH hnotinA hnotinU
        hnd hperm ha rest r h
    | some cons =>
      simp only [tryValues, hec] at h
      by_cases hae : anyEmpty cons = true
      · rw [if_pos hae] at h
        exact tryValues_sound csp hbv hnv bt a u2 nextKey IH hnotinA hnotinU
          hnd hperm ha rest r h
      · rw [if_neg hae] at h
        have hanyF : anyEmpty cons = false := by
          cases hAE : anyEmpty cons with
          | false => rfl
          | true => exact absurd hAE hae
        have ha' : vSet a nextKey [val] = a ++ [(nextKey, [val])] :=
          vSet_append_of_none a nextKey [val]
            (vLookup_eq_none_of_not_mem a nextKey hnotinA)
        have hkeysa' : vKeys (vSet a nextKey [val]) =
            vKeys a ++ [nextKey] := by
          rw [ha']
          simp [vKeys]
        have hnd' : (vKeys (vSet a nextKey [val]) ++ vKeys u2).Nodup := by
          rw [hkeysa', List.append_assoc, List.singleton_append]
          refine List.perm_middle.symm.nodup ?_
          refine List.nodup_cons.mpr ⟨?_, hnd⟩
          intro hmem
          rcases List.mem_append.mp hmem with h1 | h1
          · exact hnotinA h1
          · exact hnotinU h1
        have hvmsub := enforceConsistency_vmSub (vSet a nextKey [val]) u2
          csp cons hec
        have hmerge2 : mergeAssignment (vSet a nextKey [val]) u2 =
            u2 ++ vSet a nextKey [val] :=
          mergeAssignment_disjoint _ _ hnd'
        have hkeyscons : vKeys cons =
            vKeys u2 ++ vKeys (vSet a nextKey [val]) := by
          rw [hvmsub.1, hmerge2]
          simp [vKeys]
        have hdisjUA : ∀ k ∈ vKeys u2, k ∉ vKeys (vSet a nextKey [val]) :=
          fun k hk hk2 => (List.nodup_append.mp hnd').2.2 hk2 hk
        have hnilU : (vKeys u2).filter
            (fun k => (vLookup (vSet a nextKey [val]) k).isSome) = [] := by
          rw [List.filter_eq_nil_iff]
          intro k hk
          rw [vLookup_eq_none_of_not_mem _ _ (hdisjUA k hk)]
          simp
        have hallA : (vKeys (vSet a nextKey [val])).filter
            (fun k => (vLookup (vSet a nextKey [val]) k).isSome) =
            vKeys (vSet a nextKey [val]) := by
          rw [List.filter_eq_self]
          intro k hk
          exact (vLookup_isSome_iff_mem _ _).mpr hk
        have hqA := vKeys_filter_key
          (fun k => (vLookup (vSet a nextKey [val]) k).isSome) cons
        have hKA : vKeys (cons.filter
            (fun kv => (vLookup (vSet a nextKey [val]) kv.1).isSome)) =
            vKeys (vSet a nextKey [val]) := by
          rw [hqA, hkeyscons, List.filter_append, hnilU, hallA,
            List.nil_append]
        have hnilA : (vKeys (vSet a nextKey [val])).filter
            (fun k => (vLookup (vSet a nextKey [val]) k).isNone) = [] := by
          rw [List.filter_eq_nil_iff]
          intro k hk
          obtain ⟨d, hd⟩ := Option.isSome_iff_exists.mp
            ((vLookup_isSome_iff_mem _ _).mpr hk)
          rw [hd]
          simp
        have hallU : (vKeys u2).filter
            (fun k => (vLookup (vSet a nextKey [val]) k).isNone) =
            vKeys u2 := by
          rw [List.filter_eq_self]
          intro k hk
          rw [vLookup_eq_none_of_not_mem _ _ (hdisjUA k hk)]
          rfl
        have hqU := vKeys_filter_key
          (fun k => (vLookup (vSet a nextKey [val]) k).isNone) cons
        have hKU : vKeys (cons.filter
            (fun kv => (vLookup (vSet a nextKey [val]) kv.1).isNone)) =
            vKeys u2 := by
          rw [hqU, hkeyscons, List.filter_append, hnilA, hallU,
            List.append_nil]
        have hsingA' : ∀ kv ∈ vSet a nextKey [val], ∃ v, kv.2 = [v] := by
          intro kv hkv
          rw [ha'] at hkv
          rcases List.mem_append.mp hkv with h1 | h1
          · exact ha kv h1
          · rw [List.mem_singleton.mp h1]
            exact ⟨val, rfl⟩
        have hlookA' : ∀ k, k ∈ vKeys (vSet a nextKey [val]) →
            ∃ y, vLookup (vSet a nextKey [val]) k = some [y] := by
          intro k hk
          obtain ⟨d, hd⟩ := Option.isSome_iff_exists.mp
            ((vLookup_isSome_iff_mem _ _).mpr hk)
          obtain ⟨y, hy⟩ := hsingA' (k, d) (vLookup_mem _ k d hd)
          simp only at hy
          rw [hy] at hd
          exact ⟨y, hd⟩
        have hconsNodup : (vKeys cons).Nodup := by
          rw [hkeyscons]
          exact List.perm_append_comm.nodup hnd'
        have hconsne : ∀ kv ∈ cons, kv.2 ≠ ([] : Dom V) :=
          ne_nil_of_anyEmpty_false cons hanyF
        have hsingNewA : ∀ kv ∈ cons.filter
            (fun kv => (vLookup (vSet a nextKey [val]) kv.1).isSome),
            ∃ v, kv.2 = [v] := by
          intro kv hkv
          obtain ⟨hkvc, hkvp⟩ := List.mem_filter.mp hkv
          have hkmem : kv.1 ∈ vKeys (vSet a nextKey [val]) :=
            mem_of_vLookup_isSome _ _ hkvp
          obtain ⟨y, hy⟩ := hlookA' kv.1 hkmem
          have hlc : vLookup cons kv.1 = some kv.2 :=
            vLookup_of_mem_nodup cons hconsNodup kv hkvc
          obtain ⟨d, hd, hsl⟩ := hvmsub.2 kv.1 kv.2 hlc
          rw [hmerge2, vLookup_append_right u2 _ kv.1
            (fun hmem => hdisjUA kv.1 hmem hkmem), hy] at hd
          injection hd with hd
          refine ⟨y, ?_⟩
          rw [← hd] at hsl
          exact sublist_singleton_ne_nil hsl (hconsne kv hkvc)
        cases hbtv : bt
            (cons.filter
              (fun kv => (vLookup (vSet a nextKey [val]) kv.1).isSome))
            (cons.filter
              (fun kv => (vLookup (vSet a nextKey [val]) kv.1).isNone)) with
        | none =>
          simp only [hbtv] at h
          cases h
        | some ores =>
          cases ores with
          | none =>
            simp only [hbtv] at h
            exact tryValues_sound csp hbv hnv bt a u2 nextKey IH hnotinA
              hnotinU hnd hperm ha rest r h
          | some result =>
            simp only [hbtv] at h
            injection h with h
            injection h with h
            subst h
            refine IH _ _ _ hbtv ?_ ?_ hsingNewA ?_
            · rw [hKA, hKU]
              exact hnd'
            · rw [hKA, hKU, hkeysa']
              exact hperm
            · intro hnewU
              have hu2nil : u2 = [] := by
                have h0 : vKeys (cons.filter (fun kv =>
                    (vLookup (vSet a nextKey [val]) kv.1).isNone)) = [] := by
                  rw [hnewU]
                  rfl
                rw [hKU] at h0
                exact List.map_eq_nil_iff.mp h0
              subst hu2nil
              have hkeysd : (vKeys (vSet a nextKey [val])).Perm
                  (vKeys csp.vars) := by
                rw [hkeysa']
                simpa [vKeys] using hperm
              obtain ⟨hconsA, hsatA⟩ := ec_singleton_sound csp
                (vSet a nextKey [val]) cons
                (fun c hc => ⟨hkeysd.mem_iff.mpr (hbv c hc).1,
                  hkeysd.mem_iff.mpr (hbv c hc).2⟩)
                (fun C hC => ⟨(hnv C hC).1,
                  fun v hv => hkeysd.mem_iff.mpr ((hnv C hC).2 v hv)⟩)
                hsingA'
                ((List.nodup_append.mp hnd').1)
                hec
              have hnewAeq : cons.filter (fun kv =>
                  (vLookup (vSet a nextKey [val]) kv.1).isSome) =
                  vSet a nextKey [val] := by
                rw [hconsA]
                exact filter_lookup_isSome_eq _ _
                  (fun kv hkv => List.mem_map_of_mem Prod.fst hkv)
              rw [hnewAeq]
              exact hsatA

/-- Soundness of `backtrack`: under the search invariants, a successful
result covers exactly the declared variables with singleton domains and
satisfies every constraint. -/
theorem backtrack_sound {V : Type} (csp : Problem V)
    (hbv : ∀ c ∈ csp.constraints,
      c.head ∈ vKeys csp.vars ∧ c.tail ∈ vKeys csp.vars)
    (hnv : ∀ C ∈ csp.naryConstraints,
      C.vars ≠ [] ∧ ∀ v ∈ C.vars, v ∈ vKeys csp.vars) :
    ∀ (fuel : Nat) (a u r : VarMap V),
    backtrack fuel a u csp = some (some r) →
    (vKeys a ++ vKeys u).Nodup →
    (vKeys a ++ vKeys u).Perm (vKeys csp.vars) →
    (∀ kv ∈ a, ∃ v, kv.2 = [v]) →
    (u = [] → satAssignment csp a) →
    (vKeys r).Perm (vKeys csp.vars) ∧ (∀ kv ∈ r, ∃ v, kv.2 = [v]) ∧
      satAssignment csp r
  | 0, a, u, r => by
    intro h
    cases h
  | fuel + 1, a, u, r => by
    intro h hnd hperm ha hsat
    by_cases hu : u = []
    · subst hu
      simp only [backtrack, cloneAssignment, finished, vKeys] at h
      simp only [List.map_nil, List.length_nil, if_pos rfl] at h
      injection h with h
      injection h with h
      subst h
      refine ⟨?_, ha, hsat rfl⟩
      simpa [vKeys] using hperm
    · obtain ⟨nextKey, hsel, hselmem⟩ := select_nonempty u hu
      have hfin : finished u = false := by
        cases hf : finished u with
        | true => exact absurd ((finished_iff_nil u).mp hf) hu
        | false => rfl
      have hbt : backtrack (fuel + 1) a u csp =
          tryValues (fun a2 u2 => backtrack fuel a2 u2 csp) a
            (vErase u nextKey) csp nextKey
            (orderValues nextKey a u csp) := by
        simp only [backtrack, cloneAssignment, hfin, Bool.false_eq_true,
          if_false, hsel]
      rw [hbt] at h
      have hnotinA : nextKey ∉ vKeys a := by
        intro hmem
        exact (List.nodup_append.mp hnd).2.2 hmem hselmem
      have hUnodup : (vKeys u).Nodup := (List.nodup_append.mp hnd).2.1
      have hkeysu2 : vKeys (vErase u nextKey) = (vKeys u).erase nextKey :=
        vKeys_vErase u nextKey
      have hnotinU : nextKey ∉ vKeys (vErase u nextKey) := by
        rw [hkeysu2]
        exact hUnodup.not_mem_erase
      have hpermu : (vKeys u).Perm (nextKey :: (vKeys u).erase nextKey) :=
        List.perm_cons_erase hselmem
      have hnd2 : (vKeys a ++ vKeys (vErase u nextKey)).Nodup := by
        rw [hkeysu2]
        have h1 : (vKeys a ++ vKeys u).Perm
            (vKeys a ++ (nextKey :: (vKeys u).erase nextKey)) :=
          List.Perm.append_left _ hpermu
        have h2 := h1.nodup hnd
        have hsub : List.Sublist (vKeys a ++ (vKeys u).erase nextKey)
            (vKeys a ++ (nextKey :: (vKeys u).erase nextKey)) :=
          List.Sublist.append_left (List.sublist_cons_self nextKey _)
            (vKeys a)
        exact hsub.nodup h2
      have hperm2 : ((vKeys a ++ [nextKey]) ++
          vKeys (vErase u nextKey)).Perm (vKeys csp.vars) := by
        rw [hkeysu2, List.append_assoc, List.singleton_append]
        refine List.Perm.trans ?_ hperm
        exact List.Perm.append_left _ hpermu.symm
      exact tryValues_sound csp hbv hnv
        (fun a2 u2 => backtrack fuel a2 u2 csp) a (vErase u nextKey) nextKey
        (fun a2 u3 r0 h0 h1 h2 h3 h4 =>
          backtrack_sound csp hbv hnv fuel a2 u3 r0 h0 h1 h2 h3 h4)
        hnotinA hnotinU hnd2 hperm2 ha
        (orderValues nextKey a u csp) r h

theorem validateBinary_ok_mem {V : Type} (vs : List String) :
    ∀ (l : List (BinC V)), validateBinary vs l = Except.ok () →
    ∀ c ∈ l, c.head ∈ vs ∧ c.tail ∈ vs
  | [] => by
    intro _ c hc
    cases hc
  | c0 :: rest => by
    intro h c hc
    simp only [validateBinary] at h
    by_cases h1 : c0.head ∈ vs
    · rw [if_neg (fun h2 => h2 h1)] at h
      by_cases h2 : c0.tail ∈ vs
      · rw [if_neg (fun h3 => h3 h2)] at h
        rcases List.mem_cons.mp hc with rfl | hmem
        · exact ⟨h1, h2⟩
        · exact validateBinary_ok_mem vs rest h c hmem
      · rw [if_pos h2] at h
        cases h
    · rw [if_pos h1] at h
      cases h

theorem firstUnknown_none (vs : List String) :
    ∀ (l : List String), firstUnknown vs l = none → ∀ v ∈ l, v ∈ vs
  | [] => by
    intro _ v hv
    cases hv
  | v0 :: rest => by
    intro h v hv
    simp only [firstUnknown] at h
    by_cases h1 : v0 ∈ vs
    · rw [if_neg (fun hn => hn h1)] at h
      rcases List.mem_cons.mp hv with rfl | hmem
      · exact h1
      · exact firstUnknown_none vs rest h v hmem
    · rw [if_pos h1] at h
      cases h

theorem validateNary_ok_facts {V : Type} (vs : List String) :
    ∀ (l : List (NaryC V)), validateNary vs l = Except.ok () →
    ∀ C ∈ l, C.vars ≠ [] ∧ ∀ v ∈ C.vars, v ∈ vs
  | [] => by
    intro _ C hC
    cases hC
  | C0 :: rest => by
    intro h C hC
    simp only [validateNary] at h
    by_cases h1 : C0.vars.length = 0
    · rw [if_pos h1] at h
      cases h
    · rw [if_neg h1] at h
      cases h2 : firstUnknown vs C0.vars with
      | some v =>
        simp only [h2] at h
        cases h
      | none =>
        simp only [h2] at h
        rcases List.mem_cons.mp hC with rfl | hmem
        · refine ⟨?_, firstUnknown_none vs _ h2⟩
          intro hnil
          exact h1 (by rw [hnil]; rfl)
        · exact validateNary_ok_facts vs rest h C hmem

theorem validateProblem_ok_parts {V : Type} (csp : Problem V)
    (h : validateProblem csp = Except.ok ()) :
    validateBinary (varsSetOf csp) csp.constraints = Except.ok () ∧
    validateNary (varsSetOf csp) csp.naryConstraints = Except.ok () := by
  simp only [validateProblem, validateVars_ok] at h
  cases h2 : validateBinary (varsSetOf csp) csp.constraints with
  | error e =>
    simp only [h2] at h
    cases h
  | ok u =>
    cases u
    simp only [h2] at h
    exact ⟨rfl, h⟩

/-- C1 (Soundness of solve): for every raw problem whose declared
variable names are distinct, if `CSP.solve` passes validation and
returns a result other than the `FAILURE` sentinel, then the result
maps exactly the declared variables, each to one value; every binary
constraint's predicate is true on the pair (head's value, tail's
value); and every n-ary constraint's predicate returns `some true` on
the full tuple mapping each participant to its returned value. -/
theorem solve_sound {V : Type} (raw : RawProblem V) (out : VMap (Option V))
    (hnd : (vKeys raw.vars).Nodup)
    (hok : CSP.solve raw = Except.ok (some out)) :
    (vKeys out).Perm (vKeys raw.vars) ∧
    (∀ k, k ∈ vKeys raw.vars → ∃ v, vLookup out k = some (some v)) ∧
    (∀ c ∈ (normalizeProblem raw).constraints, ∃ hv tv,
      vLookup out c.head = some (some hv) ∧
      vLookup out c.tail = some (some tv) ∧ c.pred hv tv = true) ∧
    (∀ C ∈ (normalizeProblem raw).naryConstraints,
      C.predicate (fun w =>
        if w ∈ C.vars then (vLookup out w).getD none else none) =
        some true) := by
  cases hval : validateProblem (normalizeProblem raw) with
  | error e =>
    simp only [CSP.solve, hval] at hok
    cases hok
  | ok u0 =>
    cases u0
    simp only [CSP.solve, hval] at hok
    injection hok with hok
    cases hbt0 : (backtrack ((normalizeProblem raw).vars.length + 1) []
        (cloneVars (normalizeProblem raw).vars)
        (normalizeProblem raw)).getD none with
    | none =>
      simp only [hbt0] at hok
      cases hok
    | some r =>
      simp only [hbt0] at hok
      injection hok with hok
      have hbt : backtrack ((normalizeProblem raw).vars.length + 1) []
          (cloneVars (normalizeProblem raw).vars) (normalizeProblem raw) =
          some (some r) := by
        cases hb2 : backtrack ((normalizeProblem raw).vars.length + 1) []
            (cloneVars (normalizeProblem raw).vars)
            (normalizeProblem raw) with
        | none =>
          rw [hb2] at hbt0
          cases hbt0
        | some o =>
          rw [hb2] at hbt0
          simp only [Option.getD_some] at hbt0
          rw [hbt0]
      obtain ⟨hvb, hvn⟩ :=
        validateProblem_ok_parts (normalizeProblem raw) hval
      have hbv := validateBinary_ok_mem (varsSetOf (normalizeProblem raw))
        (normalizeProblem raw).constraints hvb
      have hnv := validateNary_ok_facts (varsSetOf (normalizeProblem raw))
        (normalizeProblem raw).naryConstraints hvn
      have hkeys : vKeys (normalizeProblem raw).vars = vKeys raw.vars := by
        simp [normalizeProblem, vKeys, List.map_map, Function.comp]
      obtain ⟨hpermr, hsingr, hsatr⟩ :=
        backtrack_sound (normalizeProblem raw) hbv hnv
          ((normalizeProblem raw).vars.length + 1) []
          (cloneVars (normalizeProblem raw).vars) r hbt
          (by
            simp only [cloneVars, vKeys, List.map_nil, List.nil_append]
            rw [show List.map Prod.fst (normalizeProblem raw).vars =
              vKeys (normalizeProblem raw).vars from rfl, hkeys]
            exact hnd)
          (by
            simp only [cloneVars, vKeys, List.map_nil, List.nil_append]
            exact List.Perm.refl _)
          (by
            intro kv hkv
            cases hkv)
          (by
            intro hnil
            have hkeysnil : vKeys (normalizeProblem raw).vars = [] := by
              rw [show cloneVars (normalizeProblem raw).vars =
                (normalizeProblem raw).vars from rfl] at hnil
              rw [hnil]
              rfl
            constructor
            · intro c hc
              have h1 := (hbv c hc).1
              rw [show varsSetOf (normalizeProblem raw) =
                vKeys (normalizeProblem raw).vars from rfl, hkeysnil] at h1
              cases h1
            · intro C hC
              obtain ⟨hvne, hvars⟩ := hnv C hC
              obtain ⟨v0, vs0, hv0⟩ : ∃ v0 vs0, C.vars = v0 :: vs0 := by
                cases hcv : C.vars with
                | nil => exact absurd hcv hvne
                | cons v0 vs0 => exact ⟨v0, vs0, rfl⟩
              have h1 := hvars v0 (by rw [hv0]; exact List.mem_cons_self _ _)
              rw [show varsSetOf (normalizeProblem raw) =
                vKeys (normalizeProblem raw).vars from rfl, hkeysnil] at h1
              cases h1)
      subst hok
      refine ⟨?_, ?_, ?_, ?_⟩
      · have hmk : vKeys (r.map (fun kv => (kv.1, kv.2.head?))) =
            vKeys r := by
          simp [vKeys, List.map_map, Function.comp]
        rw [hmk, ← hkeys]
        exact hpermr
      · intro k hk
        have hkr : k ∈ vKeys r := hpermr.mem_iff.mpr (by
          rw [hkeys]
          exact hk)
        obtain ⟨d, hd⟩ := Option.isSome_iff_exists.mp
          ((vLookup_isSome_iff_mem r k).mpr hkr)
        obtain ⟨v, hv⟩ := hsingr (k, d) (vLookup_mem r k d hd)
        simp only at hv
        subst hv
        refine ⟨v, ?_⟩
        rw [vLookup_map_snd, hd]
        rfl
      · intro c hc
        obtain ⟨hv, tv, hhd, htd, hp⟩ := hsatr.1 c hc
        exact ⟨hv, tv, by rw [vLookup_map_snd, hhd]; rfl,
          by rw [vLookup_map_snd, htd]; rfl, hp⟩
      · intro C hC
        have hpr := hsatr.2 C hC
        have hfun : (fun w =>
            if w ∈ C.vars then ((vLookup r w).getD []).head? else none) =
            (fun w => if w ∈ C.vars then
              (vLookup (r.map (fun kv => (kv.1, kv.2.head?))) w).getD none
              else none) := by
          funext w
          by_cases hw : w ∈ C.vars
          · rw [if_pos hw, if_pos hw, vLookup_map_snd]
            cases vLookup r w <;> rfl
          · rw [if_neg hw, if_neg hw]
        exact hfun ▸ hpr

/-- A small constrained problem and the solution computed for it, used
to witness the soundness theorem on a concrete run. -/
def rawC1 : RawProblem Nat :=
  ⟨[("x", some [1, 2]), ("y", some [1, 2])],
   some [some ⟨"x", "y", fun a b => decide (a < b)⟩],
   some [some ⟨["y"], fun t => some (decide (t "y" = some 2))⟩]⟩

def outC1 : VMap (Option Nat) := [("x", some 1), ("y", some 2)]

theorem solve_sound_witness :
    (vKeys rawC1.vars).Nodup ∧
    ((vKeys outC1).Perm (vKeys rawC1.vars) ∧
     (∀ k, k ∈ vKeys rawC1.vars → ∃ v, vLookup outC1 k = some (some v)) ∧
     (∀ c ∈ (normalizeProblem rawC1).constraints, ∃ hv tv,
       vLookup outC1 c.head = some (some hv) ∧
       vLookup outC1 c.tail = some (some tv) ∧ c.pred hv tv = true) ∧
     (∀ C ∈ (normalizeProblem rawC1).naryConstraints,
       C.predicate (fun w =>
         if w ∈ C.vars then (vLookup outC1 w).getD none else none) =
         some true)) :=
  ⟨by decide, solve_sound rawC1 outC1 (by decide) (by rfl)⟩
